import Mathlib

/-!
# igotifier: a shallow embedding of `main.go`

`igotifier` watches a path and runs a shell command when it changes, coalescing
bursts of notifications with a debounce timer.  This file embeds the functions
of `main.go` (`parseFlags`, `run`, `addDir`, `executeCommand`) as Lean
definitions and proves the properties of the specification about them.

Conventions of the embedding.

* Time is a natural number of nanoseconds, as `time.Duration` counts them.
* A Go `error` value is a `GoError`; the Go `nil` error is `Option.none`.
* `log.Printf` appends a `LogLine` to a log; each constructor of `LogLine`
  stands for one call site and carries that call's arguments.
* The library pieces the program relies on (`filepath.Walk`, `time.AfterFunc`,
  `Timer.Stop`, the channels of the watcher) are modelled after their
  documented behaviour; every function of `main.go` is translated line by line.
-/

namespace Igotifier

/-! ## Constants and data of `main.go` -/

/-- The constant `version` (main.go:20). -/
def version : String := "0.1.0"

/-- The `time.Millisecond` of Go, in nanoseconds. -/
def Millisecond : Nat := 1000000

/-- The constant `debounceDelay = 100 * time.Millisecond` (main.go:21). -/
def debounceDelay : Nat := 100 * Millisecond

/-- The struct `config` (main.go:24-28). -/
structure config where
  path : String
  execCmd : String
  verbose : Bool
  deriving DecidableEq, Repr

/-- Go error values.  `SkipDir` is the sentinel `filepath.SkipDir`; `sys` is an
error produced by the operating system or a library; `wrap` is the result of a
`fmt.Errorf(format, [arg,] err)` call with a `%w` verb. -/
inductive GoError where
  | SkipDir : GoError
  | sys (msg : String) : GoError
  | wrap (format : String) (arg : Option String) (cause : GoError) : GoError
  deriving DecidableEq, Repr

/-- A byte slice, as returned by `cmd.CombinedOutput()`. -/
abbrev Bytes := List Nat

/-- The operation kinds of `fsnotify.Op`. -/
inductive Op where
  | Create | Write | Remove | Rename | Chmod
  deriving DecidableEq, Repr

/-- An `fsnotify.Event`: the affected path and the operation kind. -/
structure Event where
  Name : String
  Op : Op
  deriving DecidableEq, Repr

/-- One line written through `log.Printf`; one constructor per call site. -/
inductive LogLine where
  /-- Line `log.Printf("Watching %q for changes...", cfg.path)` (main.go:101) -/
  | watching (path : String)
  /-- Line `log.Printf("Will execute: %s", cfg.execCmd)` (main.go:103) -/
  | willExecute (cmd : String)
  /-- Line `log.Printf("Event: %s on %s", event.Op, event.Name)` (main.go:127) -/
  | event (op : Op) (name : String)
  /-- Line `log.Printf("Watcher error: %v", err)` (main.go:144); `err` may be nil -/
  | watcherError (err : Option GoError)
  /-- Line `log.Printf("Received signal %v, shutting down...", sig)` (main.go:147) -/
  | receivedSignal (sig : Nat)
  /-- Line `log.Printf("Executing: %s", cmdStr)` (main.go:175) -/
  | executing (cmd : String)
  /-- Line `log.Printf("Command output:\n%s", string(output))` (main.go:184) -/
  | commandOutput (output : Bytes)
  /-- Line `log.Printf("Command failed: %v", err)` (main.go:188) -/
  | commandFailed (err : GoError)
  /-- Line `log.Printf("Output:\n%s", string(output))` (main.go:190) -/
  | output (output : Bytes)
  /-- Line `log.Printf("Command executed successfully")` (main.go:193) -/
  | commandSucceeded
  deriving DecidableEq, Repr

/-! ## `parseFlags` (main.go:38-74) -/

/-- What `flag.Usage` writes to standard error (main.go:46-55); `arg0` is
`os.Args[0]` and `defaults` is the text of `flag.PrintDefaults()`. -/
def usage (arg0 defaults : String) : String :=
  "igotifier - File watcher that executes commands on change\n\n"
    ++ "Usage:\n"
    ++ ("  " ++ arg0 ++ " -path=<path> -exec=<command>\n\n")
    ++ "Examples:\n"
    ++ ("  " ++ arg0 ++ " -path=\"/config/app.yaml\" -exec=\"app-reloader sighup --name=nginx\"\n")
    ++ ("  " ++ arg0 ++ " -path=\"./src\" -exec=\"make test\" -verbose\n\n")
    ++ "Options:\n"
    ++ defaults

/-- The way `parseFlags` ends: the process exits through `os.Exit(code)` having
written `stdout` and `stderr`, or the function returns a `config`. -/
inductive ParseOutcome where
  | exit (code : Nat) (stdout : String) (stderr : String)
  | ret (cfg : config)
  deriving DecidableEq, Repr

/-- The body of `parseFlags` after `flag.Parse()` (main.go:59-73), as a function of
the four parsed flag values. -/
def parseFlags (arg0 defaults : String) (path execCmd : String) (verbose ver : Bool) :
    ParseOutcome :=
  if ver then
    .exit 0 ("igotifier version " ++ version ++ "\n") ""
  else if path = "" ∨ execCmd = "" then
    .exit 1 "" (usage arg0 defaults)
  else
    .ret { path := path, execCmd := execCmd, verbose := verbose }

/-! ## `executeCommand` (main.go:174-195) -/

/-- The function `executeCommand`: `output` and `err` are the two results of
`cmd.CombinedOutput()` for `sh -c cmdStr`; the value is the list of lines the
function logs, in order. -/
def executeCommand (cmdStr : String) (verbose : Bool) (output : Bytes)
    (err : Option GoError) : List LogLine :=
  let l0 := [LogLine.executing cmdStr]
  let l1 := if verbose ∧ output.length > 0 then l0 ++ [LogLine.commandOutput output] else l0
  match err with
  | some e =>
    let l2 := l1 ++ [LogLine.commandFailed e]
    if ¬ verbose ∧ output.length > 0 then l2 ++ [LogLine.output output] else l2
  | none => l1 ++ [LogLine.commandSucceeded]

/-- A log line that shows captured command output (main.go:184 or main.go:190). -/
def LogLine.showsOutput : LogLine → Bool
  | .commandOutput _ => true
  | .output _ => true
  | _ => false

/-- The captured outputs a list of log lines shows, in order. -/
def shownOutputs : List LogLine → List Bytes
  | [] => []
  | .commandOutput o :: ls => o :: shownOutputs ls
  | .output o :: ls => o :: shownOutputs ls
  | _ :: ls => shownOutputs ls

/-! ## The file tree and `filepath.Walk` -/

/-- An `os.FileInfo`, reduced to the two methods `addDir` calls. -/
structure FileInfo where
  Name : String
  IsDir : Bool
  deriving DecidableEq, Repr

/-- A file tree as `filepath.Walk` sees it.  `file` is any entry that is not a
directory; `broken` is an entry whose `os.Lstat` fails with the given message;
`dir` is a directory, with the message of the error of reading its entries if
there is one, and its entries in the lexical order in which `Walk` visits
them. -/
inductive Node where
  | file (name : String) : Node
  | broken (name : String) (err : String) : Node
  | dir (name : String) (readErr : Option String) (children : List Node) : Node
  deriving Repr

/-- The name of the entry. -/
def Node.name : Node → String
  | .file n => n
  | .broken n _ => n
  | .dir n _ _ => n

/-- Whether `os.Lstat` succeeds on the entry and reports a non-directory. -/
def Node.isFile : Node → Bool
  | .file _ => true
  | _ => false

/-- The type `filepath.WalkFunc`, threading the state `σ` the callback mutates. -/
abbrev WalkFunc (σ : Type) := String → Option FileInfo → Option GoError → σ → σ × Option GoError

/-- Whether the path begins with a separator (`rooted` in `filepath.Clean`). -/
def isRooted : List Char → Bool
  | c :: _ => decide (c = '/')
  | [] => false

/-- The elements of a path between its separators; the empty path has one empty
element. -/
def splitSlash : List Char → List (List Char)
  | [] => [[]]
  | c :: cs =>
    if c = '/' then [] :: splitSlash cs
    else
      match splitSlash cs with
      | [] => [[c]]
      | h :: t => (c :: h) :: t

/-- One turn of the loop of `filepath.Clean` on the element `elem`; `out` holds the
elements written so far, the last one first.  An empty element and `.` are
dropped; `..` removes the last element written when that is not itself `..`,
is written when nothing can be removed and the path is not rooted, and is
dropped at the top of a rooted path; any other element is written. -/
def cleanStep (rooted : Bool) (out : List (List Char)) (elem : List Char) : List (List Char) :=
  if elem = [] ∨ elem = ['.'] then out
  else if elem = ['.', '.'] then
    match out with
    | top :: rest => if top = ['.', '.'] then (if rooted then out else elem :: out) else rest
    | [] => if rooted then out else [elem]
  else elem :: out

/-- The elements `filepath.Clean` writes for a path, in order. -/
def cleanElems (path : List Char) : List (List Char) :=
  ((splitSlash path).foldl (cleanStep (isRooted path)) []).reverse

/-- The elements with one separator between two of them. -/
def joinSlash : List (List Char) → List Char
  | [] => []
  | [e] => e
  | e :: f :: rest => e ++ '/' :: joinSlash (f :: rest)

/-- The function `filepath.Clean` on the characters of a path (Unix): the empty
path gives `.`; a rooted path gives the separator and the written elements; a
path that is not rooted gives the written elements, or `.` when there is
none. -/
def cleanChars (path : List Char) : List Char :=
  if path = [] then ['.']
  else if isRooted path then '/' :: joinSlash (cleanElems path)
  else if cleanElems path = [] then ['.']
  else joinSlash (cleanElems path)

/-- The function `filepath.Clean`. -/
def Clean (path : String) : String := ⟨cleanChars path.data⟩

/-- The function `filepath.Join(path, name)`: the first non-empty argument and what
follows it are joined with a separator and cleaned; two empty arguments give
the empty string. -/
def Join (path name : String) : String :=
  if path ≠ "" then Clean (path ++ "/" ++ name)
  else if name ≠ "" then Clean name
  else ""

mutual
/-- The function `walk` of `path/filepath`, called on an entry whose `Lstat`
succeeded; on a `broken` entry it is the call `walkFn(path, nil, err)` that
`Walk` and the loop of `walk` make instead. -/
def walk {σ : Type} (walkFn : WalkFunc σ) (path : String) : Node → σ → σ × Option GoError
  | .file name, s => walkFn path (some ⟨name, false⟩) none s
  | .broken _ err, s => walkFn path none (some (.sys err)) s
  | .dir name readErr children, s =>
    let r := walkFn path (some ⟨name, true⟩) (readErr.map GoError.sys) s
    if readErr.isSome ∨ r.2.isSome then r
    else walkNames walkFn path children r.1
/-- The loop `for _, name := range names` of `walk`. -/
def walkNames {σ : Type} (walkFn : WalkFunc σ) (path : String) : List Node → σ → σ × Option GoError
  | [], s => (s, none)
  | c :: cs, s =>
    let r := walk walkFn (Join path c.name) c s
    match r.2 with
    | none => walkNames walkFn path cs r.1
    | some e =>
      if c.isFile ∨ e ≠ .SkipDir then (r.1, some e)
      else walkNames walkFn path cs r.1
end

/-- The function `filepath.Walk(root, fn)`; `node` is what is at `root`. -/
def Walk {σ : Type} (root : String) (node : Node) (fn : WalkFunc σ) (s : σ) : σ × Option GoError :=
  let r := walk fn root node s
  if r.2 = some .SkipDir then (r.1, none) else r

/-! ## The watcher and `addDir` (main.go:153-172) -/

/-- An `fsnotify.Watcher`: `addErr` is the environment (the message of the error
with which the notification source refuses a path, if it does), `watched` the
paths subscribed so far, in the order of subscription. -/
structure Watcher where
  addErr : String → Option String
  watched : List String

/-- The method `watcher.Add(path)`. -/
def Watcher.Add (w : Watcher) (path : String) : Watcher × Option GoError :=
  match w.addErr path with
  | some e => (w, some (.sys e))
  | none => ({ w with watched := w.watched ++ [path] }, none)

/-- The function `strings.HasPrefix`. -/
def HasPrefix (s pre : String) : Bool := pre.data.isPrefixOf s.data

/-- The callback `addDir` passes to `filepath.Walk` (main.go:154-171).  `Walk` never
calls it with a nil `info` and a nil `err`; the branch for that case is there to
make the function total. -/
def addDirFn (dir : String) : WalkFunc Watcher := fun path info err w =>
  match err with
  | some e => (w, some e)
  | none =>
    match info with
    | none => (w, none)
    | some info =>
      if info.IsDir ∧ HasPrefix info.Name "." ∧ path ≠ dir then (w, some .SkipDir)
      else if info.IsDir then
        match w.Add path with
        | (w1, some e) => (w1, some (.wrap "failed to watch %q: %w" (some path) e))
        | (w1, none) => (w1, none)
      else (w, none)

/-- The function `addDir(watcher, dir)`; `root` is the tree at `dir`. -/
def addDir (watcher : Watcher) (dir : String) (root : Node) : Watcher × Option GoError :=
  Walk dir root (addDirFn dir) watcher

/-! ## Timers of the Go runtime -/

/-- The life of a timer: armed (created and neither fired nor stopped), stopped
by `Timer.Stop` before it fired, or fired (its function has been started). -/
inductive TimerStatus where
  | armed | stopped | fired
  deriving DecidableEq, Repr

/-- A `*time.Timer` made by `time.AfterFunc(d, f)`.  `id` is its address,
`deadline` the instant at which the runtime starts `f`, and `cmdStr`, `verbose`
are what the closure `func() { executeCommand(cfg.execCmd, cfg.verbose) }` of
main.go:135-137 captured. -/
structure Timer where
  id : Nat
  deadline : Nat
  status : TimerStatus
  cmdStr : String
  verbose : Bool
  deriving DecidableEq, Repr

/-- One call `executeCommand(cmdStr, verbose)`, made at `time` by the function of
the timer `timer`. -/
structure Dispatch where
  time : Nat
  timer : Nat
  cmdStr : String
  verbose : Bool
  deriving DecidableEq, Repr

/-- The method `timer.Stop()` on the timer at address `id`: an armed timer becomes
stopped and will not fire; a timer that fired or was stopped is left as it is. -/
def Timer.Stop (id : Nat) (timers : List Timer) : List Timer :=
  timers.map fun tm =>
    if tm.id = id ∧ tm.status = .armed then { tm with status := .stopped } else tm

/-- The call `time.AfterFunc(d, func() { executeCommand(cmdStr, verbose) })` at the
instant `now`: a new armed timer at a fresh address, which is returned. -/
def AfterFunc (now d : Nat) (cmdStr : String) (verbose : Bool) (timers : List Timer) :
    Nat × List Timer :=
  (timers.length, timers ++ [⟨timers.length, now + d, .armed, cmdStr, verbose⟩])

/-- Whether the runtime has started the timer's function by the instant `now`:
the timer is armed and its deadline is before `now`, or is `now` itself and
`incl` holds. -/
def Timer.due (incl : Bool) (now : Nat) (tm : Timer) : Bool :=
  tm.status = .armed ∧ (tm.deadline < now ∨ (incl = true ∧ tm.deadline = now))

/-! ## The event loop of `run` (main.go:111-150) -/

/-- The state of the event loop: the local variable `timer` (main.go:112, `none`
is `nil`), the timers of the runtime in the order of creation, the calls of
`executeCommand` made so far, and the lines logged by the loop. -/
structure LoopState where
  timer : Option Nat
  timers : List Timer
  dispatches : List Dispatch
  log : List LogLine
  deriving DecidableEq, Repr

/-- The state in which the loop is entered, `log` being what `run` logged before. -/
def LoopState.init (log : List LogLine) : LoopState :=
  { timer := none, timers := [], dispatches := [], log := log }

/-- The part of the state the debouncing consists of: everything but the log. -/
def LoopState.debounce (s : LoopState) : Option Nat × List Timer × List Dispatch :=
  (s.timer, s.timers, s.dispatches)

/-- The armed timers of a state. -/
def LoopState.armed (s : LoopState) : List Timer :=
  s.timers.filter fun tm => tm.status = .armed

/-- The runtime up to the instant `now`: every due timer fires, which calls
`executeCommand` with the captured arguments at the timer's deadline. -/
def runTimers (incl : Bool) (now : Nat) (s : LoopState) : LoopState :=
  { s with
    timers := s.timers.map fun tm =>
      if tm.due incl now then { tm with status := .fired } else tm
    dispatches := s.dispatches ++
      (s.timers.filter fun tm => tm.due incl now).map fun tm =>
        ⟨tm.deadline, tm.id, tm.cmdStr, tm.verbose⟩ }

/-- What the `select` of main.go:117 can receive: a value of `watcher.Events` or
its closure, a value of `watcher.Errors` or its closure, a signal of `sigCh`. -/
inductive Input where
  | event (event : Event)
  | eventsClosed
  | error (err : Option GoError)
  | errorsClosed
  | signal (sig : Nat)
  deriving DecidableEq, Repr

/-- Whether the input makes the loop return. -/
def Input.terminal : Input → Bool
  | .eventsClosed => true
  | .errorsClosed => true
  | .signal _ => true
  | _ => false

/-- One pass through the `select` of main.go:117-149 at the instant `now`.  The
second component is `none` when the loop goes on and `some r` when `run`
returns `r`. -/
def selectCase (cfg : config) (now : Nat) : Input → LoopState → LoopState × Option (Option GoError)
  | .event event, s =>
    let log := if cfg.verbose then s.log ++ [LogLine.event event.Op event.Name] else s.log
    let stopped := match s.timer with
      | some id => Timer.Stop id s.timers
      | none => s.timers
    let r := AfterFunc now debounceDelay cfg.execCmd cfg.verbose stopped
    ({ s with timer := some r.1, timers := r.2, log := log }, none)
  | .eventsClosed, s => (s, some none)
  | .error err, s => ({ s with log := s.log ++ [LogLine.watcherError err] }, none)
  | .errorsClosed, s => (s, some none)
  | .signal sig, s => ({ s with log := s.log ++ [LogLine.receivedSignal sig] }, some none)

/-- The loop `for { select { ... } }` on the inputs `inputs`, each with the
instant at which the loop receives it.  Before an input of instant `t` is
handled the runtime has run up to `t`; `race t` says whether a timer whose
deadline is `t` itself has fired by then.  When the inputs are used up the
loop waits, and the state is observed at `horizon`. -/
def eventLoop (cfg : config) (race : Nat → Bool) (horizon : Nat) :
    List (Nat × Input) → LoopState → LoopState × Option (Option GoError)
  | [], s => (runTimers true horizon s, none)
  | (t, i) :: rest, s =>
    let r := selectCase cfg t i (runTimers (race t) t s)
    match r.2 with
    | some ret => (r.1, some ret)
    | none => eventLoop cfg race horizon rest r.1

/-- The states the loop can be in: the initial one, and from a state the one after
the runtime ran up to some instant and the one after a pass through `select`. -/
inductive Reaches (cfg : config) : LoopState → LoopState → Prop where
  | refl (s : LoopState) : Reaches cfg s s
  | tick (incl : Bool) (now : Nat) {s s1 : LoopState} :
      Reaches cfg s s1 → Reaches cfg s (runTimers incl now s1)
  | select (now : Nat) (i : Input) {s s1 : LoopState} :
      Reaches cfg s s1 → Reaches cfg s (selectCase cfg now i s1).1

/-- A state reachable from the state in which the loop is entered. -/
def Reachable (cfg : config) (s : LoopState) : Prop :=
  ∃ log, Reaches cfg (LoopState.init log) s

/-! ## `run` (main.go:76-151) -/

/-- The environment of `run`: the result of `os.Stat(cfg.path)`, the error of
`fsnotify.NewWatcher()` if it fails, the paths the notification source refuses,
and the tree at `cfg.path`. -/
structure Env where
  stat : Except String FileInfo
  newWatcher : Option String
  addErr : String → Option String
  root : Node

/-- What is observed of a call of `run`: `returned` is `none` while the loop
waits and `some r` when `run` returned `r`; `watched` are the subscribed paths;
`loop` is the state of the event loop, `none` when it was never entered. -/
structure RunResult where
  returned : Option (Option GoError)
  watched : List String
  loop : Option LoopState

/-- The calls of `executeCommand` in a result. -/
def RunResult.dispatches (r : RunResult) : List Dispatch :=
  match r.loop with
  | some s => s.dispatches
  | none => []

/-- The function `run(cfg)`. -/
def run (env : Env) (cfg : config) (race : Nat → Bool) (horizon : Nat)
    (inputs : List (Nat × Input)) : RunResult :=
  match env.stat with
  | .error e =>
    ⟨some (some (.wrap "invalid path %q: %w" (some cfg.path) (.sys e))), [], none⟩
  | .ok info =>
    match env.newWatcher with
    | some e => ⟨some (some (.wrap "failed to create watcher: %w" none (.sys e))), [], none⟩
    | none =>
      let watcher : Watcher := ⟨env.addErr, []⟩
      let r : Watcher × Option GoError :=
        if info.IsDir then
          match addDir watcher cfg.path env.root with
          | (w, some e) => (w, some (.wrap "failed to watch directory: %w" none e))
          | (w, none) => (w, none)
        else
          match watcher.Add cfg.path with
          | (w, some e) => (w, some (.wrap "failed to watch file: %w" none e))
          | (w, none) => (w, none)
      match r.2 with
      | some e => ⟨some (some e), r.1.watched, none⟩
      | none =>
        let log0 := [LogLine.watching cfg.path]
        let log := if cfg.verbose then log0 ++ [LogLine.willExecute cfg.execCmd] else log0
        let l := eventLoop cfg race horizon inputs (LoopState.init log)
        ⟨l.2, r.1.watched, some l.1⟩

/-- Whether a step of the setup of `run` fails: `os.Stat`, `fsnotify.NewWatcher`, or
the subscription of the directory tree or of the file. -/
def setupFails (env : Env) (cfg : config) : Prop :=
  match env.stat with
  | .error _ => True
  | .ok info =>
    env.newWatcher.isSome ∨
      (if info.IsDir then (addDir ⟨env.addErr, []⟩ cfg.path env.root).2.isSome
       else (env.addErr cfg.path).isSome)

/-! ## The hidden-directory rule, as the specification words it -/

/-- Whether a name begins with a dot. -/
def hidden (name : String) : Bool := HasPrefix name "."

mutual
/-- The directories of a tree, each with its path and with the names of the
entries on the way to it strictly below the root, itself included. -/
def Node.dirs (path : String) (below : List String) : Node → List (String × List String)
  | .file _ => []
  | .broken _ _ => []
  | .dir _ _ children => (path, below) :: Node.dirsOf path below children
/-- The directories of the trees of a list of entries of the directory `path`. -/
def Node.dirsOf (path : String) (below : List String) : List Node → List (String × List String)
  | [] => []
  | c :: cs =>
    c.dirs (Join path c.name) (below ++ [c.name]) ++ Node.dirsOf path below cs
end

/-- Whether no name of the way to a directory is hidden. -/
def visibleWay (d : String × List String) : Bool := d.2.all fun n => !hidden n

/-- The paths of the directories of a tree that no hidden name leads to. -/
def Node.visible (path : String) (below : List String) (n : Node) : List String :=
  ((n.dirs path below).filter visibleWay).map Prod.fst

/-- The paths of the directories of a list of entries that no hidden name leads to. -/
def Node.visibleOf (path : String) (below : List String) (cs : List Node) : List String :=
  ((Node.dirsOf path below cs).filter visibleWay).map Prod.fst

/-- The directories the specification wants subscribed, in the order of the walk:
those such that neither they nor an ancestor strictly below the root is
hidden. -/
def visibleDirs (dir : String) (root : Node) : List String :=
  root.visible dir []

/-- Whether the notification source accepts the path. -/
def accepts (addErr : String → Option String) (q : String) : Bool := (addErr q).isNone

/-- The error `addDir` returns for the first path the notification source
refuses, if there is one (main.go:166). -/
def firstFailure (addErr : String → Option String) : List String → Option GoError
  | [] => none
  | q :: qs =>
    match addErr q with
    | some e => some (.wrap "failed to watch %q: %w" (some q) (.sys e))
    | none => firstFailure addErr qs

mutual
/-- Whether the walk of `addDir` meets no error in the tree: no entry it visits is
broken and no directory it visits is unreadable.  It visits a hidden directory
below the root but nothing beneath it. -/
def Node.walkClean (isRoot : Bool) : Node → Bool
  | .file _ => true
  | .broken _ _ => false
  | .dir name readErr children =>
    readErr.isNone && ((hidden name && !isRoot) || Node.walkCleanOf children)
/-- Whether the walk meets no error in any of the entries of a directory. -/
def Node.walkCleanOf : List Node → Bool
  | [] => true
  | c :: cs => c.walkClean false && Node.walkCleanOf cs
end

/-! ## Paths and file names -/

/-- An element of a path that is a file name: not empty, not `.`, not `..`, without
a separator. -/
def RealElem (x : List Char) : Prop := x ≠ [] ∧ x ≠ ['.'] ∧ x ≠ ['.', '.'] ∧ '/' ∉ x

/-- What `filepath.Clean` has written at any moment, the last element first: file
names on top of a run of `..`, the run being empty in a rooted path. -/
def GoodOut (rooted : Bool) (out : List (List Char)) : Prop :=
  ∃ (reals : List (List Char)) (k : Nat), out = reals ++ List.replicate k ['.', '.'] ∧
    (∀ x ∈ reals, RealElem x) ∧ (rooted = true → k = 0)

/-- The number of elements of the cleaned path. -/
def depth (path : String) : Nat := (cleanElems path.data).length

/-- Whether a string can be the name of an entry of a directory: it is not empty,
is neither `.` nor `..`, and holds no separator. -/
def validName (name : String) : Bool :=
  decide (name.data ≠ [] ∧ name.data ≠ ['.'] ∧ name.data ≠ ['.', '.'] ∧ '/' ∉ name.data)

mutual
/-- Whether every entry below the node has a name an entry of a directory can
have.  The name of the node itself is free: at the root it is the last element
of the path given to `addDir`, which may be `.` or `..`. -/
def Node.validNames : Node → Bool
  | .file _ => true
  | .broken _ _ => true
  | .dir _ _ children => Node.validNamesOf children
/-- Whether the entries of a list, and every entry below them, have such names. -/
def Node.validNamesOf : List Node → Bool
  | [] => true
  | c :: cs => validName c.name && c.validNames && Node.validNamesOf cs
end

/-! ## The invariant of the event loop -/

/-- The invariant of the loop: the addresses of the timers are their ranks of
creation, every armed timer is the one the variable `timer` points to, and
every call of `executeCommand` comes from a timer that fired. -/
structure LoopState.Inv (s : LoopState) : Prop where
  ids : s.timers.map (fun tm => tm.id) = List.range s.timers.length
  pending : ∀ tm ∈ s.timers, tm.status = .armed → s.timer = some tm.id
  fired : ∀ d ∈ s.dispatches, ∃ tm ∈ s.timers, tm.id = d.timer ∧ tm.status = .fired

/-- Every armed timer of the state is the one the variable `timer` points to and
has its deadline after the instant `t`. -/
def LoopState.PendingAfter (s : LoopState) (t : Nat) : Prop :=
  ∀ tm ∈ s.timers, tm.status = .armed → s.timer = some tm.id ∧ t < tm.deadline

/-- Two inputs of the loop that are the same unless both are notifications, which
may then differ in operation kind and in affected path. -/
def Input.sameUpToEvent : Input → Input → Prop
  | .event _, .event _ => True
  | a, b => a = b

/-- What a part of the walk of `addDir` does, from the watcher `w`, on a part of
the tree whose visible directories are `V`: it subscribes a beginning `l` of the
directories of `V` up to the first refused one; if it ends without an error
(or with the request to skip) it subscribed all of `V`; and if the walk meets no
error in that part of the tree, it subscribes exactly up to the first refused
directory and returns the error of that one. -/
def WalkOutcome (w : Watcher) (V : List String) (clean : Bool)
    (r : Watcher × Option GoError) : Prop :=
  ∃ l, r.1.addErr = w.addErr ∧ r.1.watched = w.watched ++ l ∧
    l <+: V.takeWhile (accepts w.addErr) ∧
    ((r.2 = none ∨ r.2 = some .SkipDir) → l = V ∧ ∀ q ∈ V, w.addErr q = none) ∧
    (clean = true → l = V.takeWhile (accepts w.addErr) ∧
      (if r.2 = some .SkipDir then none else r.2) = firstFailure w.addErr V)

/-! ## Example inputs -/

/-- A configuration: watch `.`, run `echo done`, not verbose. -/
def exampleCfg : config := { path := ".", execCmd := "echo done", verbose := false }

/-- Five notifications on one file, 30 ms apart. -/
def exampleBurst : List (Nat × Event) :=
  [(0, ⟨"src/a.txt", .Write⟩), (30 * Millisecond, ⟨"src/a.txt", .Write⟩),
   (60 * Millisecond, ⟨"src/a.txt", .Chmod⟩), (90 * Millisecond, ⟨"src/a.txt", .Write⟩),
   (120 * Millisecond, ⟨"src/a.txt", .Write⟩)]

/-- The state of the loop after one notification at the instant 0: its trigger is
pending. -/
def examplePending : LoopState :=
  (selectCase exampleCfg 0 (.event ⟨"src/a.txt", .Write⟩) (LoopState.init [])).1

/-- The state of the loop 200 ms later: the trigger has fired. -/
def exampleFired : LoopState := runTimers true (200 * Millisecond) examplePending

/-- The tree at the path `.`: the name of the root is `.`, which begins with a dot,
and the root holds a hidden directory `.git`. -/
def exampleTree : Node :=
  .dir "." none
    [.dir ".git" none [.dir "objects" none []],
     .file "README",
     .dir "src" none [.file ".env", .dir "pkg" none []]]

/-- A watcher of a notification source that accepts every path. -/
def exampleWatcher : Watcher := { addErr := fun _ => none, watched := [] }

/-- A watcher of a notification source that refuses `src`. -/
def exampleRefusing : Watcher :=
  { addErr := fun q => if q = "src" then some "permission denied" else none,
    watched := [] }

/-! ## Theorems: `parseFlags` and `executeCommand` -/

/-- C10, CLI outcome: with `-version` set `parseFlags` prints
`igotifier version 0.1.0` to standard output, nothing to standard error, and
exits with status 0; otherwise, if `-path` or `-exec` is empty it prints the
usage text (the banner, the usage line and the examples with the program name,
then the flag defaults) to standard error, which is therefore not empty,
nothing to standard output, and exits with status 1; otherwise (both non-empty)
it returns the config holding the three flag values. -/
theorem parseFlags_outcome (arg0 defaults path execCmd : String) (verbose ver : Bool) :
    (ver = true →
      parseFlags arg0 defaults path execCmd verbose ver
        = .exit 0 "igotifier version 0.1.0\n" "") ∧
    (ver = false → (path = "" ∨ execCmd = "") →
      parseFlags arg0 defaults path execCmd verbose ver
        = .exit 1 ""
            ("igotifier - File watcher that executes commands on change\n\n"
              ++ "Usage:\n"
              ++ ("  " ++ arg0 ++ " -path=<path> -exec=<command>\n\n")
              ++ "Examples:\n"
              ++ ("  " ++ arg0
                  ++ " -path=\"/config/app.yaml\" -exec=\"app-reloader sighup --name=nginx\"\n")
              ++ ("  " ++ arg0 ++ " -path=\"./src\" -exec=\"make test\" -verbose\n\n")
              ++ "Options:\n"
              ++ defaults)) ∧
    (∀ code out err, parseFlags arg0 defaults path execCmd verbose ver = .exit code out err →
      code = 1 → out = "" ∧ 0 < err.length) ∧
    (ver = false → path ≠ "" → execCmd ≠ "" →
      parseFlags arg0 defaults path execCmd verbose ver
        = .ret { path := path, execCmd := execCmd, verbose := verbose }) := by
  refine ⟨?_, ?_, ?_, ?_⟩
  · intro h
    subst h
    simp only [parseFlags, if_true]
    rfl
  · intro h hp
    subst h
    simp only [parseFlags, Bool.false_eq_true, if_false, hp, if_true, usage]
  · intro code out err h hcode
    subst hcode
    unfold parseFlags at h
    split at h
    · cases h
    · split at h
      · injection h with _ h2 h3
        subst h2 h3
        refine ⟨rfl, ?_⟩
        simp only [usage, String.length_append]
        have : ("igotifier - File watcher that executes commands on change\n\n").length = 59 := by
          decide
        omega
      · cases h
  · intro h hp he
    subst h
    simp [parseFlags, hp, he]

/-- C4, output visibility: `executeCommand` logs the captured output if and only
if the output is non-empty and (verbose is set or the command failed), and then
logs it once; so on success with non-empty output and `verbose = false` it is
not logged, and on failure with non-empty output it is logged for both values
of `verbose`. -/
theorem executeCommand_output_visibility (cmdStr : String) (verbose : Bool)
    (output : Bytes) (err : Option GoError) :
    shownOutputs (executeCommand cmdStr verbose output err)
        = (if output ≠ [] ∧ (verbose = true ∨ err ≠ none) then [output] else []) ∧
    ((∃ l ∈ executeCommand cmdStr verbose output err, l.showsOutput = true)
        ↔ (output ≠ [] ∧ (verbose = true ∨ err ≠ none))) ∧
    (output ≠ [] → shownOutputs (executeCommand cmdStr false output none) = []) ∧
    (output ≠ [] → ∀ e, shownOutputs (executeCommand cmdStr verbose output (some e))
        = [output]) := by
  refine ⟨?_, ?_, ?_, ?_⟩
  · cases output <;> cases verbose <;> cases err <;>
      simp [executeCommand, shownOutputs]
  · cases output <;> cases verbose <;> cases err <;>
      simp [executeCommand, LogLine.showsOutput]
  · intro h
    cases output
    · exact absurd rfl h
    · simp [executeCommand, shownOutputs]
  · intro h e
    cases output
    · exact absurd rfl h
    · cases verbose <;> simp [executeCommand, shownOutputs]

/-! ## Lemmas on timers -/

theorem Timer.Stop_length (id : Nat) (l : List Timer) : (Timer.Stop id l).length = l.length := by
  simp [Timer.Stop]

theorem Timer.Stop_ids (id : Nat) (l : List Timer) :
    (Timer.Stop id l).map (fun tm => tm.id) = l.map (fun tm => tm.id) := by
  unfold Timer.Stop
  rw [List.map_map]
  apply List.map_congr_left
  intro tm _
  simp only [Function.comp]
  split <;> rfl

/-- The list of timers after the `if timer != nil { timer.Stop() }` of main.go:132-134. -/
theorem stopped_eq (s : LoopState) :
    (match s.timer with
      | some id => Timer.Stop id s.timers
      | none => s.timers).length = s.timers.length := by
  cases s.timer <;> simp [Timer.Stop_length]

theorem stopped_ids (s : LoopState) :
    List.map (fun tm : Timer => tm.id) (match s.timer with
      | some id => Timer.Stop id s.timers
      | none => s.timers) = s.timers.map (fun tm => tm.id) := by
  cases s.timer <;> simp [Timer.Stop_ids]

/-- When every armed timer is the one `timer` points to, none is armed after the
stop of main.go:132-134. -/
theorem stopped_not_armed (s : LoopState)
    (h : ∀ tm ∈ s.timers, tm.status = .armed → s.timer = some tm.id) :
    ∀ tm ∈ (match s.timer with
      | some id => Timer.Stop id s.timers
      | none => s.timers), tm.status ≠ .armed := by
  intro tm htm harmed
  cases hp : s.timer with
  | none =>
    rw [hp] at htm
    have := h tm htm harmed
    rw [hp] at this
    cases this
  | some id =>
    rw [hp] at htm
    simp only [Timer.Stop, List.mem_map] at htm
    obtain ⟨tm0, h0, rfl⟩ := htm
    by_cases hc : tm0.id = id ∧ tm0.status = .armed
    · rw [if_pos hc] at harmed
      cases harmed
    · rw [if_neg hc] at harmed
      have := h tm0 h0 harmed
      rw [hp] at this
      injection this with this
      exact hc ⟨this.symm, harmed⟩

/-- A timer that is not armed is left alone by the stop of main.go:132-134. -/
theorem mem_stopped_of_not_armed (s : LoopState) (tm : Timer) (h : tm ∈ s.timers)
    (hs : tm.status ≠ .armed) :
    tm ∈ (match s.timer with
      | some id => Timer.Stop id s.timers
      | none => s.timers) := by
  cases s.timer with
  | none => exact h
  | some id =>
    simp only [Timer.Stop, List.mem_map]
    refine ⟨tm, h, ?_⟩
    rw [if_neg]
    intro hc
    exact hs hc.2

/-- A timer that is not armed is left alone by the runtime. -/
theorem mem_runTimers_of_not_armed (incl : Bool) (now : Nat) (s : LoopState) (tm : Timer)
    (h : tm ∈ s.timers) (hs : tm.status ≠ .armed) : tm ∈ (runTimers incl now s).timers := by
  simp only [runTimers, List.mem_map]
  refine ⟨tm, h, ?_⟩
  rw [if_neg]
  simp [Timer.due, hs]

theorem selectCase_event_timers (cfg : config) (now : Nat) (ev : Event) (s : LoopState) :
    (selectCase cfg now (.event ev) s).1.timers
      = (match s.timer with
          | some id => Timer.Stop id s.timers
          | none => s.timers)
        ++ [⟨s.timers.length, now + debounceDelay, .armed, cfg.execCmd, cfg.verbose⟩] := by
  simp only [selectCase, AfterFunc, stopped_eq]

/-! ## The invariant holds in every reachable state -/

theorem LoopState.Inv.init (log : List LogLine) : (LoopState.init log).Inv := by
  refine ⟨rfl, ?_, ?_⟩
  · intro tm h
    cases h
  · intro d h
    cases h

theorem LoopState.Inv.runTimers {s : LoopState} (h : s.Inv) (incl : Bool) (now : Nat) :
    (runTimers incl now s).Inv := by
  refine ⟨?_, ?_, ?_⟩
  · have : (Igotifier.runTimers incl now s).timers.map (fun tm => tm.id)
        = s.timers.map (fun tm => tm.id) := by
      simp only [Igotifier.runTimers, List.map_map]
      apply List.map_congr_left
      intro tm _
      simp only [Function.comp]
      split <;> rfl
    rw [this, h.ids]
    simp [Igotifier.runTimers]
  · intro tm htm harmed
    simp only [Igotifier.runTimers, List.mem_map] at htm
    obtain ⟨tm0, h0, rfl⟩ := htm
    by_cases hc : tm0.due incl now = true
    · rw [if_pos hc] at harmed
      cases harmed
    · rw [if_neg hc] at harmed ⊢
      exact h.pending tm0 h0 harmed
  · intro d hd
    simp only [Igotifier.runTimers, List.mem_append, List.mem_map, List.mem_filter] at hd
    rcases hd with hd | ⟨tm, ⟨htm, hdue⟩, rfl⟩
    · obtain ⟨tm, htm, hid, hst⟩ := h.fired d hd
      exact ⟨tm, mem_runTimers_of_not_armed incl now s tm htm (by rw [hst]; decide), hid, hst⟩
    · refine ⟨{ tm with status := .fired }, ?_, rfl, rfl⟩
      simp only [Igotifier.runTimers, List.mem_map]
      exact ⟨tm, htm, by rw [if_pos hdue]⟩

theorem LoopState.Inv.selectCase {s : LoopState} (h : s.Inv) (cfg : config) (now : Nat)
    (i : Input) : (selectCase cfg now i s).1.Inv := by
  cases i with
  | event ev =>
    refine ⟨?_, ?_, ?_⟩
    · rw [selectCase_event_timers, List.map_append, stopped_ids, h.ids]
      simp [stopped_eq, List.range_succ]
    · intro tm htm harmed
      rw [selectCase_event_timers, List.mem_append] at htm
      rcases htm with htm | htm
      · exact absurd harmed (stopped_not_armed s h.pending tm htm)
      · simp only [List.mem_singleton] at htm
        subst htm
        simp [Igotifier.selectCase, AfterFunc, stopped_eq]
    · intro d hd
      obtain ⟨tm, htm, hid, hst⟩ := h.fired d hd
      refine ⟨tm, ?_, hid, hst⟩
      rw [selectCase_event_timers, List.mem_append]
      exact Or.inl (mem_stopped_of_not_armed s tm htm (by rw [hst]; decide))
  | eventsClosed => exact h
  | error err => exact ⟨h.ids, h.pending, h.fired⟩
  | errorsClosed => exact h
  | signal sig => exact ⟨h.ids, h.pending, h.fired⟩

theorem Reaches.preserves_inv {cfg : config} {s s1 : LoopState} (hr : Reaches cfg s s1) (h : s.Inv) :
    s1.Inv := by
  induction hr with
  | refl => exact h
  | tick incl now _ ih => exact (ih h).runTimers incl now
  | select now i _ ih => exact (ih h).selectCase cfg now i

theorem Reachable.has_inv {cfg : config} {s : LoopState} (hr : Reachable cfg s) : s.Inv := by
  obtain ⟨log, hr⟩ := hr
  exact hr.preserves_inv (LoopState.Inv.init log)

theorem LoopState.Inv.ids_nodup {s : LoopState} (h : s.Inv) :
    (s.timers.map (fun tm => tm.id)).Nodup := by
  rw [h.ids]
  exact List.nodup_range _

/-- Timers with distinct addresses that all have one address are at most one. -/
theorem length_le_one_of_same_id (l : List Timer) (hn : (l.map (fun tm => tm.id)).Nodup)
    (hsame : ∀ a ∈ l, ∀ b ∈ l, a.id = b.id) : l.length ≤ 1 := by
  match l, hn, hsame with
  | [], _, _ => simp
  | [_], _, _ => simp
  | a :: b :: r, hn, hsame =>
    exfalso
    have hab : a.id = b.id := hsame a (by simp) b (by simp)
    simp only [List.map_cons, List.nodup_cons, List.mem_cons] at hn
    exact hn.1 (Or.inl hab)

theorem LoopState.Inv.armed_le_one {s : LoopState} (h : s.Inv) : s.armed.length ≤ 1 := by
  apply length_le_one_of_same_id
  · exact h.ids_nodup.sublist ((List.filter_sublist _).map _)
  · intro a ha b hb
    simp only [LoopState.armed, List.mem_filter, decide_eq_true_eq] at ha hb
    have h1 := h.pending a ha.1 ha.2
    have h2 := h.pending b hb.1 hb.2
    rw [h1] at h2
    injection h2

/-- After a notification is handled the only armed timer is the new one. -/
theorem selectCase_event_armed {s : LoopState} (h : s.Inv) (cfg : config) (now : Nat)
    (ev : Event) :
    (selectCase cfg now (.event ev) s).1.armed
      = [⟨s.timers.length, now + debounceDelay, .armed, cfg.execCmd, cfg.verbose⟩] := by
  unfold LoopState.armed
  rw [selectCase_event_timers, List.filter_append]
  have : List.filter (fun tm : Timer => decide (tm.status = .armed))
      (match s.timer with
        | some id => Timer.Stop id s.timers
        | none => s.timers) = [] := by
    rw [List.filter_eq_nil_iff]
    intro tm htm
    simpa using stopped_not_armed s h.pending tm htm
  rw [this]
  simp

/-- A timer that is not armed stays in the list of timers as it is. -/
theorem Reaches.mem_of_not_armed {cfg : config} {s s1 : LoopState} (hr : Reaches cfg s s1)
    (tm : Timer) (h : tm ∈ s.timers) (hs : tm.status ≠ .armed) : tm ∈ s1.timers := by
  induction hr with
  | refl => exact h
  | tick incl now _ ih => exact mem_runTimers_of_not_armed incl now _ tm (ih h) hs
  | select now i _ ih =>
    cases i with
    | event ev =>
      rw [selectCase_event_timers, List.mem_append]
      exact Or.inl (mem_stopped_of_not_armed _ tm (ih h) hs)
    | eventsClosed => exact ih h
    | error err => exact ih h
    | errorsClosed => exact ih h
    | signal sig => exact ih h

/-- A timer that is not armed never calls `executeCommand` later on unless it has fired. -/
theorem Reaches.no_dispatch_of_stopped {cfg : config} {s s1 : LoopState}
    (hr : Reaches cfg s s1) (hinv : s.Inv) (tm : Timer) (h : tm ∈ s.timers)
    (hs : tm.status = .stopped) : ∀ d ∈ s1.dispatches, d.timer ≠ tm.id := by
  intro d hd hid
  have hinv1 := hr.preserves_inv hinv
  obtain ⟨tm2, htm2, hid2, hst2⟩ := hinv1.fired d hd
  have hmem := hr.mem_of_not_armed tm h (by rw [hs]; decide)
  have := List.inj_on_of_nodup_map hinv1.ids_nodup hmem htm2 (by rw [hid2, hid])
  rw [← this, hs] at hst2
  cases hst2

/-! ## Lemmas on the runtime -/

/-- The runtime changes nothing when no armed timer has its deadline by `now`. -/
theorem runTimers_of_pendingAfter (incl : Bool) (now : Nat) (s : LoopState)
    (h : s.PendingAfter now) : runTimers incl now s = s := by
  have hdue : ∀ tm ∈ s.timers, tm.due incl now = false := by
    intro tm htm
    by_cases ha : tm.status = .armed
    · have := (h tm htm ha).2
      simp only [Timer.due, ha, true_and, decide_eq_false_iff_not]
      omega
    · simp [Timer.due, ha]
  have h1 : s.timers.map (fun tm => if tm.due incl now then { tm with status := .fired } else tm)
      = s.timers := by
    conv_rhs => rw [← List.map_id s.timers]
    apply List.map_congr_left
    intro tm htm
    simp [hdue tm htm]
  have h2 : s.timers.filter (fun tm => tm.due incl now) = [] := by
    rw [List.filter_eq_nil_iff]
    intro tm htm
    simp [hdue tm htm]
  simp only [runTimers, h1, h2, List.map_nil, List.append_nil]

/-- The calls the runtime makes up to `now`, in terms of the armed timers. -/
theorem runTimers_dispatches (incl : Bool) (now : Nat) (s : LoopState) :
    (runTimers incl now s).dispatches = s.dispatches ++
      (s.armed.filter fun tm => decide (tm.deadline < now ∨ (incl = true ∧ tm.deadline = now))).map
        fun tm => ⟨tm.deadline, tm.id, tm.cmdStr, tm.verbose⟩ := by
  simp only [runTimers, LoopState.armed, List.filter_filter]
  congr 2
  apply List.filter_congr
  intro tm _
  simp only [Timer.due, Bool.decide_and, Bool.and_comm]

/-- Handling a notification at `t` in a state whose pending trigger, if any, is
due after `t`: no call is made, one timer is added, it is the only armed one,
and it is due after every instant before `t + debounceDelay`. -/
theorem selectCase_event_of_pendingAfter (cfg : config) (incl : Bool) (t : Nat) (ev : Event)
    (s : LoopState) (h : s.PendingAfter t) :
    (selectCase cfg t (.event ev) (runTimers incl t s)).2 = none ∧
    (selectCase cfg t (.event ev) (runTimers incl t s)).1.dispatches = s.dispatches ∧
    (selectCase cfg t (.event ev) (runTimers incl t s)).1.timers.length = s.timers.length + 1 ∧
    (selectCase cfg t (.event ev) (runTimers incl t s)).1.armed
      = [⟨s.timers.length, t + debounceDelay, .armed, cfg.execCmd, cfg.verbose⟩] ∧
    ∀ t1, t1 < t + debounceDelay →
      (selectCase cfg t (.event ev) (runTimers incl t s)).1.PendingAfter t1 := by
  rw [runTimers_of_pendingAfter incl t s h]
  have hp : ∀ tm ∈ s.timers, tm.status = .armed → s.timer = some tm.id :=
    fun tm htm ha => (h tm htm ha).1
  have harmed : (selectCase cfg t (.event ev) s).1.armed
      = [⟨s.timers.length, t + debounceDelay, .armed, cfg.execCmd, cfg.verbose⟩] := by
    unfold LoopState.armed
    rw [selectCase_event_timers, List.filter_append]
    have : List.filter (fun tm : Timer => decide (tm.status = .armed))
        (match s.timer with
          | some id => Timer.Stop id s.timers
          | none => s.timers) = [] := by
      rw [List.filter_eq_nil_iff]
      intro tm htm
      simpa using stopped_not_armed s hp tm htm
    rw [this]
    simp
  refine ⟨rfl, rfl, ?_, harmed, ?_⟩
  · rw [selectCase_event_timers]
    simp [stopped_eq]
  · intro t1 ht1 tm htm ha
    have hmem : tm ∈ (selectCase cfg t (.event ev) s).1.armed := by
      simp only [LoopState.armed, List.mem_filter, decide_eq_true_eq]
      exact ⟨htm, ha⟩
    rw [harmed, List.mem_singleton] at hmem
    subst hmem
    refine ⟨?_, ht1⟩
    simp [selectCase, AfterFunc, stopped_eq]

/-- The calls made while the loop waits up to `horizon` with one armed timer. -/
theorem runTimers_single (horizon : Nat) (s : LoopState) (tm : Timer) (h : s.armed = [tm]) :
    (runTimers true horizon s).dispatches = s.dispatches ++
      (if tm.deadline ≤ horizon then [⟨tm.deadline, tm.id, tm.cmdStr, tm.verbose⟩] else []) := by
  rw [runTimers_dispatches, h]
  have e : (tm.deadline < horizon ∨ tm.deadline = horizon) ↔ tm.deadline ≤ horizon := by
    omega
  by_cases hd : tm.deadline ≤ horizon <;> simp [List.filter_cons, e, hd]

/-- A burst of notifications, each arriving before the trigger of the one before
is due, from a state whose pending trigger is due after the first: exactly the
trigger of the last notification calls `executeCommand`. -/
theorem eventLoop_burst (cfg : config) (race : Nat → Bool) (horizon : Nat) :
    ∀ (evs : List (Nat × Event)) (e : Nat × Event) (s : LoopState),
      s.PendingAfter e.1 →
      List.Chain (fun a b : Nat × Event => a.1 ≤ b.1 ∧ b.1 - a.1 < debounceDelay) e evs →
      (eventLoop cfg race horizon ((e :: evs).map fun x => (x.1, Input.event x.2)) s).2 = none ∧
      (eventLoop cfg race horizon ((e :: evs).map fun x => (x.1, Input.event x.2)) s).1.dispatches
        = s.dispatches ++
          (if ((e :: evs).getLast (List.cons_ne_nil e evs)).1 + debounceDelay ≤ horizon then
            [⟨((e :: evs).getLast (List.cons_ne_nil e evs)).1 + debounceDelay,
              s.timers.length + evs.length, cfg.execCmd, cfg.verbose⟩]
          else []) := by
  intro evs
  induction evs with
  | nil =>
    intro e s hs _
    obtain ⟨h1, h2, _, h4, _⟩ := selectCase_event_of_pendingAfter cfg (race e.1) e.1 e.2 s hs
    simp only [List.map_cons, List.map_nil, eventLoop, h1, List.getLast_singleton,
      List.length_nil, Nat.add_zero]
    refine ⟨trivial, ?_⟩
    rw [runTimers_single horizon _ _ h4, h2]
  | cons e1 evs ih =>
    intro e s hs hch
    obtain ⟨h1, h2, h3, _, h5⟩ := selectCase_event_of_pendingAfter cfg (race e.1) e.1 e.2 s hs
    rw [List.chain_cons] at hch
    have hlt : e1.1 < e.1 + debounceDelay := by omega
    have := ih e1 _ (h5 e1.1 hlt) hch.2
    rw [h2, h3] at this
    have hl : (e :: e1 :: evs).getLast (List.cons_ne_nil e (e1 :: evs))
        = (e1 :: evs).getLast (List.cons_ne_nil e1 evs) := List.getLast_cons _
    simp only [hl, List.length_cons]
    rw [show s.timers.length + (evs.length + 1) = s.timers.length + 1 + evs.length by omega]
    rw [List.map_cons, eventLoop, h1]
    exact this

/-- When every armed timer is due, none is armed after the runtime ran. -/
theorem runTimers_not_armed (incl : Bool) (now : Nat) (s : LoopState)
    (h : ∀ tm ∈ s.timers, tm.status = .armed → tm.due incl now = true) :
    ∀ tm ∈ (runTimers incl now s).timers, tm.status ≠ .armed := by
  intro tm htm ha
  simp only [runTimers, List.mem_map] at htm
  obtain ⟨tm0, h0, rfl⟩ := htm
  by_cases hc : tm0.due incl now = true
  · rw [if_pos hc] at ha
    cases ha
  · rw [if_neg hc] at ha
    exact hc (h tm0 h0 ha)

/-- A state without an armed timer has no pending trigger. -/
theorem pendingAfter_of_not_armed (s : LoopState) (t : Nat)
    (h : ∀ tm ∈ s.timers, tm.status ≠ .armed) : s.PendingAfter t :=
  fun tm htm ha => absurd ha (h tm htm)

/-- In a state of the invariant in which the timer `timer` points to has fired no
timer is armed. -/
theorem LoopState.Inv.not_armed_of_fired {s : LoopState} (h : s.Inv) (prev : Timer)
    (hprev : prev ∈ s.timers) (hptr : s.timer = some prev.id) (hfired : prev.status = .fired) :
    ∀ tm ∈ s.timers, tm.status ≠ .armed := by
  intro tm htm ha
  have h1 := h.pending tm htm ha
  rw [hptr] at h1
  injection h1 with h1
  have := List.inj_on_of_nodup_map h.ids_nodup hprev htm h1
  rw [this, ha] at hfired
  cases hfired

/-- Two notifications more than `debounceDelay` apart, from a state without an
armed timer: each one's trigger calls `executeCommand`. -/
theorem eventLoop_two (cfg : config) (race : Nat → Bool) (horizon : Nat) (s : LoopState)
    (h : ∀ tm ∈ s.timers, tm.status ≠ .armed) (t1 t2 : Nat) (e1 e2 : Event)
    (h12 : t1 + debounceDelay < t2) (hh : t2 + debounceDelay ≤ horizon) :
    (eventLoop cfg race horizon [(t1, .event e1), (t2, .event e2)] s).1.dispatches
      = s.dispatches ++
        [⟨t1 + debounceDelay, s.timers.length, cfg.execCmd, cfg.verbose⟩,
         ⟨t2 + debounceDelay, s.timers.length + 1, cfg.execCmd, cfg.verbose⟩] := by
  obtain ⟨h1, h2, h3, h4, _⟩ := selectCase_event_of_pendingAfter cfg (race t1) t1 e1 s
    (pendingAfter_of_not_armed s t1 h)
  rw [eventLoop, h1]
  simp only
  generalize (selectCase cfg t1 (.event e1) (runTimers (race t1) t1 s)).1 = s1 at h2 h3 h4
  have hd1 : (runTimers (race t2) t2 s1).dispatches
      = s.dispatches ++ [⟨t1 + debounceDelay, s.timers.length, cfg.execCmd, cfg.verbose⟩] := by
    rw [runTimers_dispatches, h4, h2]
    have : t1 + debounceDelay < t2 ∨ (race t2 = true ∧ t1 + debounceDelay = t2) := Or.inl h12
    simp [List.filter_cons, this]
  have hn : ∀ tm ∈ (runTimers (race t2) t2 s1).timers, tm.status ≠ .armed := by
    apply runTimers_not_armed
    intro tm htm ha
    have hmem : tm ∈ s1.armed := by
      simp only [LoopState.armed, List.mem_filter, decide_eq_true_eq]
      exact ⟨htm, ha⟩
    rw [h4, List.mem_singleton] at hmem
    subst hmem
    simp [Timer.due, h12]
  have hl : (runTimers (race t2) t2 s1).timers.length = s.timers.length + 1 := by
    rw [← h3]
    simp [runTimers]
  have hp := pendingAfter_of_not_armed _ t2 hn
  have key := eventLoop_burst cfg race horizon [] (t2, e2) _ hp List.Chain.nil
  simp only [List.map_cons, List.map_nil, eventLoop, List.getLast_singleton] at key
  rw [runTimers_of_pendingAfter (race t2) t2 _ hp] at key
  simp only [eventLoop]
  generalize (selectCase cfg t2 (.event e2) (runTimers (race t2) t2 s1)) = r at key
  rw [key.2, hd1, hl, if_pos hh]
  simp

/-! ## Lemmas on the debounce state -/

theorem runTimers_debounce_congr (incl : Bool) (now : Nat) (s1 s2 : LoopState)
    (h : s1.debounce = s2.debounce) :
    (runTimers incl now s1).debounce = (runTimers incl now s2).debounce := by
  cases s1
  cases s2
  simp only [LoopState.debounce, Prod.mk.injEq] at h
  obtain ⟨rfl, rfl, rfl⟩ := h
  rfl

theorem selectCase_debounce_congr (cfg : config) (now : Nat) (i1 i2 : Input)
    (hi : i1.sameUpToEvent i2) (s1 s2 : LoopState) (h : s1.debounce = s2.debounce) :
    (selectCase cfg now i1 s1).1.debounce = (selectCase cfg now i2 s2).1.debounce ∧
    (selectCase cfg now i1 s1).2 = (selectCase cfg now i2 s2).2 := by
  cases s1
  cases s2
  simp only [LoopState.debounce, Prod.mk.injEq] at h
  obtain ⟨rfl, rfl, rfl⟩ := h
  cases i1 <;> cases i2 <;>
    first
    | exact ⟨rfl, rfl⟩
    | cases hi

theorem eventLoop_debounce_congr (cfg : config) (race : Nat → Bool) (horizon : Nat)
    (l1 l2 : List (Nat × Input))
    (hl : List.Forall₂ (fun a b : Nat × Input => a.1 = b.1 ∧ a.2.sameUpToEvent b.2) l1 l2) :
    ∀ s1 s2 : LoopState, s1.debounce = s2.debounce →
      (eventLoop cfg race horizon l1 s1).1.debounce
        = (eventLoop cfg race horizon l2 s2).1.debounce ∧
      (eventLoop cfg race horizon l1 s1).2 = (eventLoop cfg race horizon l2 s2).2 := by
  induction hl with
  | nil =>
    intro s1 s2 h
    exact ⟨runTimers_debounce_congr true horizon s1 s2 h, rfl⟩
  | @cons a b l1 l2 hab _ ih =>
    intro s1 s2 h
    obtain ⟨t1, i1⟩ := a
    obtain ⟨t2, i2⟩ := b
    obtain ⟨ht, hi⟩ := hab
    simp only at ht hi
    subst ht
    have hr := runTimers_debounce_congr (race t1) t1 s1 s2 h
    obtain ⟨hd, hret⟩ := selectCase_debounce_congr cfg t1 i1 i2 hi _ _ hr
    simp only [eventLoop]
    rw [hret]
    cases hc : (selectCase cfg t1 i2 (runTimers (race t1) t1 s2)).2 with
    | some ret => exact ⟨hd, rfl⟩
    | none => exact ih _ _ hd

/-! ## Lemmas on the visible directories -/

theorem Node.visibleOf_cons (path : String) (below : List String) (c : Node)
    (cs : List Node) :
    Node.visibleOf path below (c :: cs)
      = c.visible (Join path c.name) (below ++ [c.name]) ++ Node.visibleOf path below cs := by
  simp [Node.visibleOf, Node.visible, Node.dirsOf]

theorem Node.visible_dir (path : String) (below : List String) (name : String)
    (readErr : Option String) (children : List Node) :
    (Node.dir name readErr children).visible path below
      = (if below.all (fun n => !hidden n) then [path] else [])
        ++ Node.visibleOf path below children := by
  by_cases h : (below.all fun n => !hidden n) = true
  · simp [Node.visibleOf, Node.visible, Node.dirs, List.filter_cons, visibleWay, h]
  · simp [Node.visibleOf, Node.visible, Node.dirs, List.filter_cons, visibleWay, h]

mutual
/-- Beneath a hidden name no directory is visible. -/
theorem Node.visible_of_hidden (path : String) (below : List String)
    (h : (below.all fun n => !hidden n) = false) : ∀ n : Node, n.visible path below = []
  | .file _ => rfl
  | .broken _ _ => rfl
  | .dir name readErr children => by
    rw [Node.visible_dir, h, Node.visibleOf_of_hidden path below h children]
    simp
theorem Node.visibleOf_of_hidden (path : String) (below : List String)
    (h : (below.all fun n => !hidden n) = false) :
    ∀ cs : List Node, Node.visibleOf path below cs = []
  | [] => rfl
  | c :: cs => by
    rw [Node.visibleOf_cons, Node.visibleOf_of_hidden path below h cs,
      Node.visible_of_hidden (Join path c.name) (below ++ [c.name]) (by simp [h]) c]
    rfl
end

/-! ## Lemmas on the first refused path -/

theorem firstFailure_eq_none (a : String → Option String) (V : List String)
    (h : ∀ q ∈ V, a q = none) : firstFailure a V = none := by
  induction V with
  | nil => rfl
  | cons q qs ih =>
    have hq : a q = none := h q (by simp)
    simp only [firstFailure, hq]
    exact ih fun x hx => h x (by simp [hx])

theorem takeWhile_accepts_of_all (a : String → Option String) (V1 V2 : List String)
    (h : ∀ q ∈ V1, a q = none) :
    (V1 ++ V2).takeWhile (accepts a) = V1 ++ V2.takeWhile (accepts a) := by
  induction V1 with
  | nil => rfl
  | cons q qs ih =>
    have hq : a q = none := h q (by simp)
    have : accepts a q = true := by simp [accepts, hq]
    simp only [List.cons_append, List.takeWhile_cons, this, if_true]
    rw [ih fun x hx => h x (by simp [hx])]

theorem firstFailure_append_of_all (a : String → Option String) (V1 V2 : List String)
    (h : ∀ q ∈ V1, a q = none) : firstFailure a (V1 ++ V2) = firstFailure a V2 := by
  induction V1 with
  | nil => rfl
  | cons q qs ih =>
    have hq : a q = none := h q (by simp)
    simp only [List.cons_append, firstFailure, hq]
    exact ih fun x hx => h x (by simp [hx])

theorem firstFailure_append_of_some (a : String → Option String) (V1 V2 : List String)
    (e : GoError) (h : firstFailure a V1 = some e) :
    firstFailure a (V1 ++ V2) = some e ∧
    (V1 ++ V2).takeWhile (accepts a) = V1.takeWhile (accepts a) := by
  induction V1 with
  | nil => cases h
  | cons q qs ih =>
    cases hq : a q with
    | some x =>
      simp only [firstFailure, hq] at h
      simp [firstFailure, hq, h, List.takeWhile_cons, accepts]
    | none =>
      simp only [firstFailure, hq] at h
      have := ih h
      simp [firstFailure, hq, List.takeWhile_cons, accepts, this.1, this.2]

theorem takeWhile_append_left (p : String → Bool) (V1 V2 : List String) :
    V1.takeWhile p <+: (V1 ++ V2).takeWhile p := by
  induction V1 with
  | nil => exact List.nil_prefix
  | cons q qs ih =>
    by_cases hq : p q = true
    · simp only [List.cons_append, List.takeWhile_cons, hq, if_true]
      exact (List.prefix_cons_inj q).mpr ih
    · simp [List.takeWhile_cons, hq]

theorem takeWhile_accepts_eq_of_all (a : String → Option String) (V : List String)
    (h : ∀ q ∈ V, a q = none) : V.takeWhile (accepts a) = V := by
  have := takeWhile_accepts_of_all a V [] h
  simpa using this

/-! ## Lemmas on the outcome of a part of the walk -/

theorem WalkOutcome.nil (w : Watcher) (clean : Bool) : WalkOutcome w [] clean (w, none) :=
  ⟨[], rfl, by simp, by simp, fun _ => ⟨rfl, fun _ h => by cases h⟩, fun _ => ⟨rfl, rfl⟩⟩

theorem WalkOutcome.skip (w : Watcher) (clean : Bool) :
    WalkOutcome w [] clean (w, some .SkipDir) :=
  ⟨[], rfl, by simp, by simp, fun _ => ⟨rfl, fun _ h => by cases h⟩, fun _ => ⟨rfl, rfl⟩⟩

theorem WalkOutcome.error (w : Watcher) (V : List String) (e : GoError) (he : e ≠ .SkipDir) :
    WalkOutcome w V false (w, some e) := by
  refine ⟨[], rfl, by simp, List.nil_prefix, ?_, ?_⟩
  · intro h
    rcases h with h | h
    · cases h
    · injection h with h
      exact absurd h he
  · intro h
    cases h

theorem WalkOutcome.added (w : Watcher) (q : String) (h : w.addErr q = none) :
    WalkOutcome w [q] true ({ w with watched := w.watched ++ [q] }, none) := by
  have hacc : accepts w.addErr q = true := by simp [accepts, h]
  refine ⟨[q], rfl, rfl, ?_, ?_, ?_⟩
  · simp [List.takeWhile_cons, hacc]
  · intro _
    exact ⟨rfl, fun x hx => by simp at hx; rw [hx]; exact h⟩
  · intro _
    simp [List.takeWhile_cons, hacc, firstFailure, h]

theorem WalkOutcome.refused (w : Watcher) (q e : String) (h : w.addErr q = some e) :
    WalkOutcome w [q] true (w, some (.wrap "failed to watch %q: %w" (some q) (.sys e))) := by
  have hacc : accepts w.addErr q = false := by simp [accepts, h]
  refine ⟨[], rfl, by simp, List.nil_prefix, ?_, ?_⟩
  · intro hs
    rcases hs with hs | hs <;> cases hs
  · intro _
    simp [List.takeWhile_cons, hacc, firstFailure, h]

/-- A part of the walk that ends without an error, followed by another part. -/
theorem WalkOutcome.append_soft {w : Watcher} {V1 V2 : List String} {c1 c2 : Bool}
    {r1 r2 : Watcher × Option GoError} (h1 : WalkOutcome w V1 c1 r1)
    (hs : r1.2 = none ∨ r1.2 = some .SkipDir) (h2 : WalkOutcome r1.1 V2 c2 r2) :
    WalkOutcome w (V1 ++ V2) (c1 && c2) r2 := by
  obtain ⟨l1, ha1, hw1, _, hs1, _⟩ := h1
  obtain ⟨l2, ha2, hw2, hp2, hs2, hc2⟩ := h2
  obtain ⟨rfl, hall⟩ := hs1 hs
  rw [ha1] at ha2 hp2 hs2 hc2
  refine ⟨l1 ++ l2, ha2, ?_, ?_, ?_, ?_⟩
  · rw [hw2, hw1, List.append_assoc]
  · rw [takeWhile_accepts_of_all _ _ _ hall]
    exact (List.prefix_append_right_inj l1).mpr hp2
  · intro h
    obtain ⟨rfl, hall2⟩ := hs2 h
    refine ⟨rfl, ?_⟩
    intro q hq
    rcases List.mem_append.mp hq with hq | hq
    · exact hall q hq
    · exact hall2 q hq
  · intro h
    simp only [Bool.and_eq_true] at h
    obtain ⟨hl, hf⟩ := hc2 h.2
    rw [takeWhile_accepts_of_all _ _ _ hall, firstFailure_append_of_all _ _ _ hall, hl]
    exact ⟨rfl, hf⟩

/-- A part of the walk that ends with an error ends the walk. -/
theorem WalkOutcome.append_hard {w : Watcher} {V1 : List String} {c1 : Bool}
    {r1 : Watcher × Option GoError} (h1 : WalkOutcome w V1 c1 r1) (e : GoError)
    (he : r1.2 = some e) (hne : e ≠ .SkipDir) (V2 : List String) (c2 : Bool) :
    WalkOutcome w (V1 ++ V2) (c1 && c2) r1 := by
  obtain ⟨l1, ha1, hw1, hp1, _, hc1⟩ := h1
  have hskip : r1.2 ≠ some .SkipDir := by
    rw [he]
    intro h
    injection h with h
    exact hne h
  refine ⟨l1, ha1, hw1, hp1.trans (takeWhile_append_left _ V1 V2), ?_, ?_⟩
  · intro h
    rcases h with h | h
    · rw [he] at h
      cases h
    · exact absurd h hskip
  · intro h
    simp only [Bool.and_eq_true] at h
    obtain ⟨hl, hf⟩ := hc1 h.1
    rw [if_neg hskip, he] at hf
    obtain ⟨k1, k2⟩ := firstFailure_append_of_some _ V1 V2 e hf.symm
    rw [if_neg hskip, he, k1, k2]
    exact ⟨hl, rfl⟩

/-! ## Lemmas on paths: `filepath.Clean` and `filepath.Join` -/

theorem splitSlash_ne_nil (s : List Char) : splitSlash s ≠ [] := by
  cases s with
  | nil => simp [splitSlash]
  | cons c cs =>
    simp only [splitSlash]
    split
    · simp
    · split <;> simp

theorem splitSlash_append (a b : List Char) :
    splitSlash (a ++ '/' :: b) = splitSlash a ++ splitSlash b := by
  induction a with
  | nil => simp [splitSlash]
  | cons c cs ih =>
    by_cases hc : c = '/'
    · simp [splitSlash, hc, ih]
    · have e : splitSlash (c :: cs ++ '/' :: b)
          = match splitSlash (cs ++ '/' :: b) with
            | [] => [[c]]
            | h :: t => (c :: h) :: t := by
        simp only [List.cons_append, splitSlash, hc, if_false]
        rfl
      have e2 : splitSlash (c :: cs)
          = match splitSlash cs with
            | [] => [[c]]
            | h :: t => (c :: h) :: t := by
        simp only [splitSlash, hc, if_false]
      rw [e, e2, ih]
      cases hs : splitSlash cs with
      | nil => exact absurd hs (splitSlash_ne_nil cs)
      | cons h t => rfl

theorem splitSlash_of_not_mem (n : List Char) (h : '/' ∉ n) : splitSlash n = [n] := by
  induction n with
  | nil => rfl
  | cons c cs ih =>
    have hc : c ≠ '/' := fun e => h (by simp [e])
    have hcs : '/' ∉ cs := fun e => h (by simp [e])
    simp [splitSlash, hc, ih hcs]

theorem joinSlash_cons_cons (e f : List Char) (rest : List (List Char)) :
    joinSlash (e :: f :: rest) = e ++ '/' :: joinSlash (f :: rest) := rfl

theorem splitSlash_joinSlash (es : List (List Char)) (hne : es ≠ [])
    (h : ∀ x ∈ es, '/' ∉ x) : splitSlash (joinSlash es) = es := by
  induction es with
  | nil => exact absurd rfl hne
  | cons e rest ih =>
    cases rest with
    | nil => exact splitSlash_of_not_mem e (h e (by simp))
    | cons f rest =>
      rw [joinSlash_cons_cons, splitSlash_append, splitSlash_of_not_mem e (h e (by simp)),
        ih (by simp) (fun x hx => h x (by simp [hx]))]
      rfl

theorem cleanStep_real (rooted : Bool) (out : List (List Char)) (e : List Char)
    (h : RealElem e) : cleanStep rooted out e = e :: out := by
  obtain ⟨h1, h2, h3, _⟩ := h
  simp [cleanStep, h1, h2, h3]

theorem GoodOut.of_empty (rooted : Bool) : GoodOut rooted [] :=
  ⟨[], 0, rfl, fun _ h => (by cases h), fun _ => rfl⟩

theorem GoodOut.after_step {rooted : Bool} {out : List (List Char)} (h : GoodOut rooted out)
    (e : List Char) (he : '/' ∉ e) : GoodOut rooted (cleanStep rooted out e) := by
  obtain ⟨reals, k, rfl, hr, hk⟩ := h
  by_cases h1 : e = [] ∨ e = ['.']
  · simp only [cleanStep, h1, if_true]
    exact ⟨reals, k, rfl, hr, hk⟩
  · by_cases h2 : e = ['.', '.']
    · subst h2
      cases reals with
      | nil =>
        cases k with
        | zero =>
          cases rooted with
          | true => simpa [cleanStep] using GoodOut.of_empty true
          | false => exact ⟨[], 1, by simp [cleanStep], fun _ h => (by cases h), fun h => by cases h⟩
        | succ k =>
          cases rooted with
          | true => exact absurd (hk rfl) (by simp)
          | false =>
            refine ⟨[], k + 2, ?_, fun _ h => (by cases h), fun h => by cases h⟩
            simp [cleanStep, List.replicate_succ]
      | cons x reals =>
        have hx := hr x (by simp)
        have hne : x ≠ ['.', '.'] := hx.2.2.1
        refine ⟨reals, k, ?_, fun y hy => hr y (by simp [hy]), hk⟩
        simp [cleanStep, hne]
    · have hreal : RealElem e := by
        refine ⟨fun h => h1 (Or.inl h), fun h => h1 (Or.inr h), h2, he⟩
      rw [cleanStep_real rooted _ e hreal]
      refine ⟨e :: reals, k, rfl, ?_, hk⟩
      intro y hy
      rcases List.mem_cons.mp hy with rfl | hy
      · exact hreal
      · exact hr y hy

theorem GoodOut.after_foldl {rooted : Bool} (es : List (List Char)) (hes : ∀ x ∈ es, '/' ∉ x) :
    ∀ out : List (List Char), GoodOut rooted out →
      GoodOut rooted (es.foldl (cleanStep rooted) out) := by
  induction es with
  | nil => exact fun _ h => h
  | cons e rest ih =>
    intro out h
    exact ih (fun x hx => hes x (by simp [hx])) _ (h.after_step e (hes e (by simp)))

theorem mem_splitSlash (s : List Char) : ∀ x ∈ splitSlash s, '/' ∉ x := by
  induction s with
  | nil =>
    intro x hx
    simp only [splitSlash, List.mem_singleton] at hx
    subst hx
    simp
  | cons c cs ih =>
    intro x hx
    by_cases hc : c = '/'
    · simp only [splitSlash, hc, if_true, List.mem_cons] at hx
      rcases hx with rfl | hx
      · simp
      · exact ih x hx
    · simp only [splitSlash, hc, if_false] at hx
      cases hs : splitSlash cs with
      | nil => exact absurd hs (splitSlash_ne_nil cs)
      | cons h t =>
        rw [hs] at hx ih
        simp only [List.mem_cons] at hx
        rcases hx with rfl | hx
        · intro hm
          rcases List.mem_cons.mp hm with e | hm
          · exact hc e.symm
          · exact ih h (by simp) hm
        · exact ih x (by simp [hx])

theorem foldl_dotdots (j k : Nat) :
    (List.replicate k ['.', '.']).foldl (cleanStep false) (List.replicate j ['.', '.'])
      = List.replicate (j + k) ['.', '.'] := by
  induction k generalizing j with
  | zero => rfl
  | succ k ih =>
    have hs : cleanStep false (List.replicate j ['.', '.']) ['.', '.']
        = List.replicate (j + 1) ['.', '.'] := by
      cases j with
      | zero => simp [cleanStep]
      | succ j => simp [cleanStep, List.replicate_succ]
    rw [List.replicate_succ, List.foldl_cons, hs, ih]
    congr 1
    omega

theorem foldl_reals (rooted : Bool) (reals : List (List Char)) (h : ∀ x ∈ reals, RealElem x)
    (out : List (List Char)) :
    reals.reverse.foldl (cleanStep rooted) out = reals ++ out := by
  induction reals with
  | nil => rfl
  | cons x rest ih =>
    rw [List.reverse_cons, List.foldl_append, ih fun y hy => h y (by simp [hy])]
    simp [cleanStep_real rooted _ x (h x (by simp))]

/-- Cleaning the elements of a cleaned list gives it back. -/
theorem GoodOut.foldl_reverse {rooted : Bool} {out : List (List Char)}
    (h : GoodOut rooted out) : out.reverse.foldl (cleanStep rooted) [] = out := by
  obtain ⟨reals, k, rfl, hr, hk⟩ := h
  rw [List.reverse_append, List.reverse_replicate, List.foldl_append]
  cases rooted with
  | true =>
    rw [hk rfl]
    simpa using foldl_reals true reals hr []
  | false =>
    have := foldl_dotdots 0 k
    simp only [List.replicate_zero, Nat.zero_add] at this
    rw [this]
    exact foldl_reals false reals hr _

theorem GoodOut.not_mem {rooted : Bool} {out : List (List Char)} (h : GoodOut rooted out) :
    ∀ x ∈ out, x ≠ [] ∧ '/' ∉ x ∧ isRooted x = false := by
  obtain ⟨reals, k, rfl, hr, _⟩ := h
  intro x hx
  rcases List.mem_append.mp hx with hx | hx
  · obtain ⟨h1, _, _, h4⟩ := hr x hx
    refine ⟨h1, h4, ?_⟩
    cases x with
    | nil => rfl
    | cons c cs =>
      have : c ≠ '/' := fun e => h4 (by simp [e])
      simp [isRooted, this]
  · rw [List.eq_of_mem_replicate hx]
    decide

theorem cleanElems_good (s : List Char) :
    GoodOut (isRooted s) ((splitSlash s).foldl (cleanStep (isRooted s)) []) :=
  GoodOut.after_foldl _ (mem_splitSlash s) _ (GoodOut.of_empty _)

theorem isRooted_joinSlash (e : List Char) (rest : List (List Char)) (he : e ≠ []) :
    isRooted (joinSlash (e :: rest)) = isRooted e := by
  cases e with
  | nil => exact absurd rfl he
  | cons c cs =>
    cases rest with
    | nil => rfl
    | cons f rest => rfl

/-- Lemma A: a cleaned path has the elements and the rootedness of the path. -/
theorem cleanElems_cleanChars (s : List Char) :
    isRooted (cleanChars s) = isRooted s ∧ cleanElems (cleanChars s) = cleanElems s := by
  by_cases hs : s = []
  · subst hs
    decide
  · have hg := cleanElems_good s
    have hmem := hg.not_mem
    have hrev := hg.foldl_reverse
    generalize hout : (splitSlash s).foldl (cleanStep (isRooted s)) [] = out at hg hmem hrev
    have hE : cleanElems s = out.reverse := by rw [cleanElems, hout]
    have hno : ∀ x ∈ out.reverse, '/' ∉ x := fun x hx => (hmem x (List.mem_reverse.mp hx)).2.1
    cases hr : isRooted s with
    | true =>
      rw [hr] at hrev
      have hc : cleanChars s = '/' :: joinSlash out.reverse := by
        simp [cleanChars, hs, hr, hE]
      rw [hc, hE]
      refine ⟨rfl, ?_⟩
      have hroot : isRooted ('/' :: joinSlash out.reverse) = true := rfl
      rw [cleanElems, hroot]
      by_cases hne : out.reverse = []
      · have : out = [] := by simpa using hne
        subst this
        rfl
      · have : splitSlash ('/' :: joinSlash out.reverse) = [] :: out.reverse := by
          simp [splitSlash, splitSlash_joinSlash _ hne hno]
        rw [this, List.foldl_cons]
        have : cleanStep true [] [] = [] := rfl
        rw [this, hrev]
    | false =>
      rw [hr] at hrev
      by_cases hne : out.reverse = []
      · have hc : cleanChars s = ['.'] := by
          simp [cleanChars, hs, hr, hE, hne]
        rw [hc, hE, hne]
        exact ⟨rfl, rfl⟩
      · have hc : cleanChars s = joinSlash out.reverse := by
          simp [cleanChars, hs, hr, hE, hne]
        rw [hc, hE]
        obtain ⟨e, rest, hcons⟩ := List.exists_cons_of_ne_nil hne
        have he := hmem e (List.mem_reverse.mp (by rw [hcons]; simp))
        have hroot : isRooted (joinSlash out.reverse) = false := by
          rw [hcons, isRooted_joinSlash e rest he.1, he.2.2]
        refine ⟨hroot, ?_⟩
        rw [cleanElems, hroot, splitSlash_joinSlash _ hne hno, hrev]

/-- Lemma B: a file name added to a path is one more element. -/
theorem cleanElems_append (p n : List Char) (hp : p ≠ []) (hn : RealElem n) :
    cleanElems (p ++ '/' :: n) = cleanElems p ++ [n] := by
  have hroot : isRooted (p ++ '/' :: n) = isRooted p := by
    cases p with
    | nil => exact absurd rfl hp
    | cons c cs => rfl
  rw [cleanElems, hroot, splitSlash_append, splitSlash_of_not_mem n hn.2.2.2, List.foldl_append]
  simp [cleanElems, cleanStep_real _ _ n hn]

theorem cleanElems_name (n : List Char) (hn : RealElem n) : cleanElems n = [n] := by
  rw [cleanElems, splitSlash_of_not_mem n hn.2.2.2]
  simp [cleanStep_real _ _ n hn]

/-- The functions `filepath.Clean` and `filepath.Join` at some paths. -/
theorem Join_at_paths :
    Clean "" = "." ∧ Clean "a/.." = "." ∧ Clean "/.." = "/" ∧
    Clean "../a/../.." = "../.." ∧ Clean "/../a//b/./c/.." = "/a/b" ∧
    Join "." "src" = "src" ∧ Join "./src" "sub" = "src/sub" ∧
    Join "root/" "src" = "root/src" ∧ Join "/" "src" = "/src" ∧
    Join "a/../.." "x" = "../x" ∧ Join "root" ".git" = "root/.git" := by
  decide

/-- A name of a directory entry joined to a path adds one element to it. -/
theorem Join_depth (path name : String) (h : validName name = true) :
    depth (Join path name) = depth path + 1 := by
  have hn : RealElem name.data := by simpa [validName, RealElem] using h
  by_cases hp : path = ""
  · subst hp
    have hne : name ≠ "" := by
      intro e
      rw [e] at hn
      exact hn.1 rfl
    simp only [Join, ne_eq, not_true_eq_false, if_false, hne, not_false_eq_true, if_true]
    simp only [depth, Clean]
    rw [(cleanElems_cleanChars name.data).2, cleanElems_name _ hn]
    rfl
  · have hd : path.data ≠ [] := by
      intro e
      apply hp
      cases path
      simp_all
    simp only [Join, ne_eq, hp, not_false_eq_true, if_true]
    simp only [depth, Clean]
    rw [(cleanElems_cleanChars _).2]
    have : (path ++ "/" ++ name).data = path.data ++ '/' :: name.data := by
      simp [String.data_append]
    rw [this, cleanElems_append _ _ hd hn]
    simp

/-! ## The walk of `addDir` -/

/-- The callback on a readable directory that is hidden and not the root. -/
theorem addDirFn_hidden (dir path name : String) (w : Watcher) (hh : hidden name = true)
    (hp : path ≠ dir) :
    addDirFn dir path (some ⟨name, true⟩) none w = (w, some .SkipDir) := by
  simp only [hidden] at hh
  simp [addDirFn, hh, hp]

/-- The callback on a readable directory that is not hidden or is the root. -/
theorem addDirFn_visible (dir path name : String) (w : Watcher)
    (hv : hidden name = false ∨ path = dir) :
    addDirFn dir path (some ⟨name, true⟩) none w
      = match w.addErr path with
        | some e => (w, some (.wrap "failed to watch %q: %w" (some path) (.sys e)))
        | none => ({ w with watched := w.watched ++ [path] }, none) := by
  have hc : ¬ (HasPrefix name "." = true ∧ path ≠ dir) := by
    rintro ⟨h1, h2⟩
    rcases hv with hv | hv
    · simp only [hidden] at hv
      rw [hv] at h1
      cases h1
    · exact h2 hv
  cases ha : w.addErr path <;> simp [addDirFn, hc, Watcher.Add, ha]

/-- The walk of a readable directory at `path` that the callback does not skip:
`V` are the visible directories of its entries. -/
theorem walk_dir_visible (dir path name : String) (children : List Node) (w : Watcher)
    (hv : hidden name = false ∨ path = dir) (c : Bool) (V : List String)
    (ih : ∀ w1 : Watcher, WalkOutcome w1 V c (walkNames (addDirFn dir) path children w1) ∧
      (walkNames (addDirFn dir) path children w1).2 ≠ some .SkipDir) :
    WalkOutcome w ([path] ++ V) c (walk (addDirFn dir) path (.dir name none children) w) ∧
    (walk (addDirFn dir) path (.dir name none children) w).2 ≠ some .SkipDir := by
  simp only [walk, Option.map_none', addDirFn_visible dir path name w hv]
  cases ha : w.addErr path with
  | some e =>
    simp only [Option.isSome_none, Option.isSome_some, Bool.false_eq_true, false_or, if_true]
    refine ⟨?_, by simp⟩
    have := (WalkOutcome.refused w path e ha).append_hard _ rfl (by simp) V c
    simpa using this
  | none =>
    simp only [Option.isSome_none, Bool.false_eq_true, or_self, if_false]
    obtain ⟨h1, h2⟩ := ih { w with watched := w.watched ++ [path] }
    refine ⟨?_, h2⟩
    have := (WalkOutcome.added w path ha).append_soft (Or.inl rfl) h1
    simpa using this

/-- The walk of an unreadable directory ends with the error of reading it. -/
theorem walk_dir_unreadable (dir path name e : String) (children : List Node) (w : Watcher) :
    walk (addDirFn dir) path (.dir name (some e) children) w = (w, some (.sys e)) := by
  simp [walk, addDirFn]

/-- The walk of a hidden readable directory below the root skips it. -/
theorem walk_dir_hidden (dir path name : String) (children : List Node) (w : Watcher)
    (hh : hidden name = true) (hp : path ≠ dir) :
    walk (addDirFn dir) path (.dir name none children) w = (w, some .SkipDir) := by
  simp [walk, addDirFn_hidden dir path name w hh hp]

mutual
/-- The walk of an entry below the root, reached through visible names `b0`. -/
theorem walk_addDirFn (dir : String) :
    ∀ (n : Node) (path : String) (b0 : List String) (w : Watcher),
      depth dir < depth path → (b0.all fun x => !hidden x) = true →
      n.validNames = true →
      WalkOutcome w (n.visible path (b0 ++ [n.name])) (n.walkClean false)
        (walk (addDirFn dir) path n w) ∧
      ((walk (addDirFn dir) path n w).2 = some .SkipDir → n.isFile = false)
  | .file name, path, b0, w, _, _, _ => by
    refine ⟨?_, ?_⟩
    · exact WalkOutcome.nil w _
    · intro h
      simp [walk, addDirFn] at h
  | .broken name err, path, b0, w, _, _, _ => by
    refine ⟨?_, fun _ => rfl⟩
    exact WalkOutcome.error w _ (.sys err) (by simp)
  | .dir name (some e) children, path, b0, w, _, _, _ => by
    rw [walk_dir_unreadable]
    refine ⟨?_, fun _ => rfl⟩
    exact WalkOutcome.error w _ (.sys e) (by simp)
  | .dir name none children, path, b0, w, hp, hb, hv => by
    have hne : path ≠ dir := by
      intro h
      rw [h] at hp
      exact Nat.lt_irrefl _ hp
    refine ⟨?_, fun _ => rfl⟩
    cases hh : hidden name with
    | true =>
      rw [walk_dir_hidden dir path name children w hh hne,
        Node.visible_of_hidden path _ (by simp [Node.name, hh])]
      exact WalkOutcome.skip w _
    | false =>
      have hall : ((b0 ++ [name]).all fun x => !hidden x) = true := by
        simp only [List.all_append, hb, List.all_cons, hh, List.all_nil]
        rfl
      have := (walk_dir_visible dir path name children w (Or.inl hh)
        (Node.walkCleanOf children) (Node.visibleOf path (b0 ++ [name]) children)
        (fun w1 => walkNames_addDirFn dir children path (b0 ++ [name]) w1
          (Nat.le_of_lt hp) hall hv)).1
      simpa [Node.visible_dir, Node.name, hall, Node.walkClean, hh] using this
/-- The walk of the entries of a directory reached through visible names. -/
theorem walkNames_addDirFn (dir : String) :
    ∀ (cs : List Node) (path : String) (below : List String) (w : Watcher),
      depth dir ≤ depth path → (below.all fun x => !hidden x) = true →
      Node.validNamesOf cs = true →
      WalkOutcome w (Node.visibleOf path below cs) (Node.walkCleanOf cs)
        (walkNames (addDirFn dir) path cs w) ∧
      (walkNames (addDirFn dir) path cs w).2 ≠ some .SkipDir
  | [], path, below, w, _, _, _ => by
    refine ⟨WalkOutcome.nil w _, ?_⟩
    simp [walkNames]
  | c :: cs, path, below, w, hp, hb, hv => by
    simp only [Node.validNamesOf, Bool.and_eq_true] at hv
    obtain ⟨⟨hvn, hvc⟩, hvs⟩ := hv
    have hlen : depth dir < depth (Join path c.name) := by
      rw [Join_depth path c.name hvn]
      omega
    obtain ⟨h1, h2⟩ := walk_addDirFn dir c (Join path c.name) below w hlen hb hvc
    rw [Node.visibleOf_cons]
    have hclean : Node.walkCleanOf (c :: cs) = (c.walkClean false && Node.walkCleanOf cs) := rfl
    rw [hclean]
    simp only [walkNames]
    cases hr : (walk (addDirFn dir) (Join path c.name) c w).2 with
    | none =>
      obtain ⟨k1, k2⟩ := walkNames_addDirFn dir cs path below
        (walk (addDirFn dir) (Join path c.name) c w).1 hp hb hvs
      exact ⟨h1.append_soft (Or.inl hr) k1, k2⟩
    | some e =>
      by_cases he : e = .SkipDir
      · subst he
        have hf := h2 hr
        simp only [hf, Bool.false_eq_true, ne_eq, not_true_eq_false, or_self, if_false]
        obtain ⟨k1, k2⟩ := walkNames_addDirFn dir cs path below
          (walk (addDirFn dir) (Join path c.name) c w).1 hp hb hvs
        exact ⟨h1.append_soft (Or.inr hr) k1, k2⟩
      · simp only [ne_eq, he, not_false_eq_true, or_true, if_true]
        refine ⟨?_, ?_⟩
        · have := h1.append_hard e hr he (Node.visibleOf path below cs) (Node.walkCleanOf cs)
          rw [← hr]
          exact this
        · simp [he]
end

/-- The walk from the root: the root directory is never skipped, and the walk
does not end with the request to skip. -/
theorem walk_root (dir : String) (root : Node) (w : Watcher) (hv : root.validNames = true) :
    WalkOutcome w (visibleDirs dir root) (root.walkClean true)
      (walk (addDirFn dir) dir root w) ∧
    (walk (addDirFn dir) dir root w).2 ≠ some .SkipDir := by
  match root, hv with
  | .file name, _ =>
    refine ⟨WalkOutcome.nil w _, ?_⟩
    simp [walk, addDirFn]
  | .broken name err, _ =>
    refine ⟨WalkOutcome.error w _ (.sys err) (by simp), ?_⟩
    simp [walk, addDirFn]
  | .dir name (some e) children, _ =>
    rw [walk_dir_unreadable]
    refine ⟨WalkOutcome.error w _ (.sys e) (by simp), by simp⟩
  | .dir name none children, hv =>
    have := walk_dir_visible dir dir name children w (Or.inr rfl)
      (Node.walkCleanOf children) (Node.visibleOf dir [] children)
      (fun w1 => walkNames_addDirFn dir children dir [] w1 (Nat.le_refl _) rfl hv)
    simpa [visibleDirs, Node.visible_dir, Node.walkClean] using this

/-- The result of `addDir` is the result of the walk from the root. -/
theorem addDir_eq_walk (dir : String) (root : Node) (w : Watcher)
    (hv : root.validNames = true) :
    addDir w dir root = walk (addDirFn dir) dir root w := by
  simp only [addDir, Walk]
  rw [if_neg (walk_root dir root w hv).2]

/-! ## Lemmas on the return of the loop -/

theorem selectCase_returned (cfg : config) (now : Nat) (i : Input) (s : LoopState) :
    (selectCase cfg now i s).2 = if i.terminal then some none else none := by
  cases i <;> rfl

theorem eventLoop_returned (cfg : config) (race : Nat → Bool) (horizon : Nat) :
    ∀ (inputs : List (Nat × Input)) (s : LoopState),
      (eventLoop cfg race horizon inputs s).2
        = if inputs.any (fun x => x.2.terminal) then some none else none := by
  intro inputs
  induction inputs with
  | nil =>
    intro s
    rfl
  | cons x rest ih =>
    intro s
    obtain ⟨t, i⟩ := x
    simp only [eventLoop, List.any_cons, selectCase_returned]
    by_cases hi : i.terminal = true
    · simp [hi]
    · simp only [hi, if_false, Bool.false_or]
      exact ih _

theorem any_terminal_iff (inputs : List (Nat × Input)) :
    inputs.any (fun x => x.2.terminal) = true ↔ ∃ x ∈ inputs, x.2.terminal = true := by
  rw [List.any_eq_true]

/-- When a step of the setup fails `run` returns its error without entering the loop. -/
theorem run_of_setupFails (env : Env) (cfg : config) (race : Nat → Bool) (horizon : Nat)
    (inputs : List (Nat × Input)) (h : setupFails env cfg) :
    ∃ e watched, run env cfg race horizon inputs = ⟨some (some e), watched, none⟩ := by
  unfold setupFails at h
  unfold run
  cases hst : env.stat with
  | error e => exact ⟨_, _, rfl⟩
  | ok info =>
    rw [hst] at h
    obtain ⟨name, isDir⟩ := info
    cases hnw : env.newWatcher with
    | some e => exact ⟨_, _, rfl⟩
    | none =>
      rw [hnw] at h
      simp only [Option.isSome_none, Bool.false_eq_true, false_or] at h
      cases isDir with
      | true =>
        simp only [if_true] at h
        obtain ⟨e, he⟩ := Option.isSome_iff_exists.mp h
        have : addDir ⟨env.addErr, []⟩ cfg.path env.root
            = ((addDir ⟨env.addErr, []⟩ cfg.path env.root).1, some e) := by
          rw [← he]
        simp only [if_true]
        rw [this]
        exact ⟨_, _, rfl⟩
      | false =>
        simp only [Bool.false_eq_true, if_false] at h
        obtain ⟨e, he⟩ := Option.isSome_iff_exists.mp h
        simp only [Bool.false_eq_true, if_false, Watcher.Add, he]
        exact ⟨_, _, rfl⟩

/-- When the setup succeeds `run` is the event loop from its initial state. -/
theorem run_of_setup (env : Env) (cfg : config) (race : Nat → Bool) (horizon : Nat)
    (inputs : List (Nat × Input)) (h : ¬ setupFails env cfg) :
    ∃ watched log, run env cfg race horizon inputs
      = ⟨(eventLoop cfg race horizon inputs (LoopState.init log)).2, watched,
          some (eventLoop cfg race horizon inputs (LoopState.init log)).1⟩ := by
  unfold setupFails at h
  unfold run
  cases hst : env.stat with
  | error e =>
    rw [hst] at h
    exact absurd trivial h
  | ok info =>
    rw [hst] at h
    obtain ⟨name, isDir⟩ := info
    cases hnw : env.newWatcher with
    | some e =>
      rw [hnw] at h
      exact absurd (Or.inl rfl) h
    | none =>
      rw [hnw] at h
      simp only [Option.isSome_none, Bool.false_eq_true, false_or] at h
      cases isDir with
      | true =>
        simp only [if_true, Option.not_isSome_iff_eq_none] at h
        have : addDir ⟨env.addErr, []⟩ cfg.path env.root
            = ((addDir ⟨env.addErr, []⟩ cfg.path env.root).1, none) := by
          rw [← h]
        simp only [if_true]
        rw [this]
        exact ⟨_, _, rfl⟩
      | false =>
        simp only [Bool.false_eq_true, if_false, Option.not_isSome_iff_eq_none] at h
        simp only [Bool.false_eq_true, if_false, Watcher.Add, h]
        exact ⟨_, _, rfl⟩

/-! ## Theorems: `addDir` -/

/-- C3, hidden-directory exclusion: for every path `dir` and every tree at it
whose entries have names of directory entries, when the walk meets no error and
the notification source accepts every directory the rule selects, `addDir`
returns nil and subscribes exactly, in the order of the walk, the directories
of the tree such that neither they nor an ancestor strictly below the root has
a name beginning with a dot.  The root directory is among them whatever its
name, no directory with a hidden name on the way from the root is, and only
directories are. -/
theorem addDir_hidden_exclusion (w : Watcher) (dir : String) (root : Node)
    (hvalid : root.validNames = true)
    (hadd : ∀ q ∈ visibleDirs dir root, w.addErr q = none)
    (hclean : root.walkClean true = true) :
    addDir w dir root = ({ w with watched := w.watched ++ visibleDirs dir root }, none) ∧
    (∀ q, q ∈ visibleDirs dir root ↔
      ∃ d ∈ root.dirs dir [], d.1 = q ∧ ∀ n ∈ d.2, hidden n = false) ∧
    (∀ name readErr children, root = .dir name readErr children →
      dir ∈ visibleDirs dir root) := by
  refine ⟨?_, ?_, ?_⟩
  · rw [addDir_eq_walk dir root w hvalid]
    obtain ⟨⟨l, ha, hw, _, _, hc⟩, hskip⟩ := walk_root dir root w hvalid
    obtain ⟨hl, hf⟩ := hc hclean
    rw [if_neg hskip, firstFailure_eq_none _ _ hadd] at hf
    rw [takeWhile_accepts_eq_of_all _ _ hadd] at hl
    subst hl
    generalize walk (addDirFn dir) dir root w = r at ha hw hf
    obtain ⟨⟨a, b⟩, e⟩ := r
    simp only at ha hw hf
    subst ha hw hf
    rfl
  · intro q
    simp only [visibleDirs, Node.visible, List.mem_map, List.mem_filter, visibleWay,
      List.all_eq_true, Bool.not_eq_true']
    constructor
    · rintro ⟨d, ⟨hd, hv⟩, rfl⟩
      exact ⟨d, hd, rfl, hv⟩
    · rintro ⟨d, hd, rfl, hv⟩
      exact ⟨d, ⟨hd, hv⟩, rfl⟩
  · rintro name readErr children rfl
    simp [visibleDirs, Node.visible_dir]

/-- C6, fail-fast registration: for every path `dir` and every tree at it whose
entries have names of directory entries, when the notification source refuses
one of the directories the rule selects, `addDir` returns a non-nil error, and
what it
subscribed is a beginning of those directories, in the order of the walk, that
ends before the first refused one: the refused directory is not skipped and
nothing after it is subscribed.  When the walk itself meets no error, `addDir`
subscribes exactly the directories before the first refused one and returns the
error of that one. -/
theorem addDir_fail_fast (w : Watcher) (dir : String) (root : Node)
    (hvalid : root.validNames = true)
    (hfail : ∃ q ∈ visibleDirs dir root, w.addErr q ≠ none) :
    ∃ (e : GoError) (l : List String),
      addDir w dir root = ({ w with watched := w.watched ++ l }, some e) ∧
      l <+: (visibleDirs dir root).takeWhile (accepts w.addErr) ∧
      (∀ q ∈ l, w.addErr q = none) ∧
      (root.walkClean true = true →
        l = (visibleDirs dir root).takeWhile (accepts w.addErr) ∧
        some e = firstFailure w.addErr (visibleDirs dir root)) := by
  rw [addDir_eq_walk dir root w hvalid]
  obtain ⟨⟨l, ha, hw, hp, hs, hc⟩, hskip⟩ := walk_root dir root w hvalid
  obtain ⟨q, hq, hqe⟩ := hfail
  generalize walk (addDirFn dir) dir root w = r at ha hw hp hs hc hskip
  obtain ⟨⟨a, b⟩, e⟩ := r
  simp only at ha hw hs hc hskip
  subst ha hw
  cases e with
  | none => exact absurd ((hs (Or.inl rfl)).2 q hq) hqe
  | some e =>
    refine ⟨e, l, rfl, hp, ?_, ?_⟩
    · intro x hx
      have := List.mem_takeWhile_imp (hp.subset hx)
      simpa [accepts] using this
    · intro hclean
      obtain ⟨hl, hf⟩ := hc hclean
      rw [if_neg hskip] at hf
      exact ⟨hl, hf⟩

/-! ## Theorems: the return of `run` -/

/-- C5, terminal semantics of `run`: `run` returns a non-nil error if and only if
a step of the setup fails (`os.Stat` on the path, the creation of the watcher,
the subscription of the file or of the directory tree), and then the event loop
is never entered and no command is dispatched.  When the setup succeeds the
loop is entered and, for every sequence of inputs, `run` returns nil as soon as
the sequence holds a termination signal or the closure of a stream of the
notification source, and otherwise does not return. -/
theorem run_terminal_semantics (env : Env) (cfg : config) (race : Nat → Bool)
    (horizon : Nat) (inputs : List (Nat × Input)) :
    ((∃ e, (run env cfg race horizon inputs).returned = some (some e))
      ↔ setupFails env cfg) ∧
    (setupFails env cfg →
      (run env cfg race horizon inputs).loop = none ∧
      (run env cfg race horizon inputs).dispatches = []) ∧
    (¬ setupFails env cfg →
      (run env cfg race horizon inputs).loop.isSome = true ∧
      ((run env cfg race horizon inputs).returned = some none
        ↔ ∃ x ∈ inputs, x.2.terminal = true) ∧
      ((run env cfg race horizon inputs).returned = none
        ↔ ∀ x ∈ inputs, x.2.terminal = false)) := by
  by_cases h : setupFails env cfg
  · obtain ⟨e, watched, hr⟩ := run_of_setupFails env cfg race horizon inputs h
    rw [hr]
    exact ⟨⟨fun _ => h, fun _ => ⟨e, rfl⟩⟩, fun _ => ⟨rfl, rfl⟩, fun hn => absurd h hn⟩
  · obtain ⟨watched, log, hr⟩ := run_of_setup env cfg race horizon inputs h
    rw [hr]
    simp only [eventLoop_returned]
    refine ⟨⟨?_, fun hs => absurd hs h⟩, fun hs => absurd hs h, fun _ => ⟨rfl, ?_, ?_⟩⟩
    · rintro ⟨e, he⟩
      split at he <;> cases he
    · rw [← any_terminal_iff]
      constructor
      · intro he
        split at he
        · assumption
        · cases he
      · intro ht
        rw [if_pos ht]
    · constructor
      · intro he x hx
        cases hx2 : x.2.terminal with
        | false => rfl
        | true =>
          rw [if_pos ((any_terminal_iff inputs).mpr ⟨x, hx, hx2⟩)] at he
          cases he
      · intro hall
        rw [if_neg]
        intro ht
        obtain ⟨x, hx, hx2⟩ := (any_terminal_iff inputs).mp ht
        rw [hall x hx] at hx2
        cases hx2

/-! ## Theorems: the debouncing of the event loop -/

/-- C2, single pending trigger: in every state the event loop can reach at
most one timer is armed (created, not fired, not stopped).  Handling a
notification leaves exactly one armed timer, the new one, whose deadline is the
arrival time plus `debounceDelay`, and the variable `timer` points to it; a
trigger that was pending is stopped by it, stays stopped, and no call of
`executeCommand` ever comes from it. -/
theorem single_pending_trigger (cfg : config) (s : LoopState) (hs : Reachable cfg s) :
    s.armed.length ≤ 1 ∧
    ∀ (now : Nat) (ev : Event),
      (selectCase cfg now (.event ev) s).1.armed
        = [⟨s.timers.length, now + debounceDelay, .armed, cfg.execCmd, cfg.verbose⟩] ∧
      (selectCase cfg now (.event ev) s).1.timer = some s.timers.length ∧
      ∀ tm ∈ s.timers, tm.status = .armed →
        ∀ s2, Reaches cfg (selectCase cfg now (.event ev) s).1 s2 →
          { tm with status := .stopped } ∈ s2.timers ∧
          ∀ d ∈ s2.dispatches, d.timer ≠ tm.id := by
  have hinv := hs.has_inv
  refine ⟨hinv.armed_le_one, ?_⟩
  intro now ev
  refine ⟨selectCase_event_armed hinv cfg now ev, ?_, ?_⟩
  · simp [selectCase, AfterFunc, stopped_eq]
  · intro tm htm harmed s2 hr
    have hmem : { tm with status := .stopped } ∈ (selectCase cfg now (.event ev) s).1.timers := by
      rw [selectCase_event_timers, List.mem_append]
      left
      rw [hinv.pending tm htm harmed]
      simp only [Timer.Stop, List.mem_map]
      exact ⟨tm, htm, by rw [if_pos ⟨rfl, harmed⟩]⟩
    exact ⟨hr.mem_of_not_armed _ hmem (by simp),
      hr.no_dispatch_of_stopped (hinv.selectCase cfg now _) { tm with status := .stopped } hmem rfl⟩

/-- C1, debounce coalescing: for every sequence of `N ≥ 1` notifications received
by the event loop at times `t1 ≤ ... ≤ tN` with every gap less than
`debounceDelay` and nothing after `tN`, the loop does not return and
`executeCommand` is called exactly once, at `tN + debounceDelay`, with the
configured command and verbose flag: observed at any horizon from
`tN + debounceDelay` on there is that one call, and before there is none. -/
theorem debounce_coalescing (cfg : config) (race : Nat → Bool) (horizon : Nat)
    (log : List LogLine) (evs : List (Nat × Event)) (hne : evs ≠ [])
    (hgap : List.Chain' (fun a b : Nat × Event => a.1 ≤ b.1 ∧ b.1 - a.1 < debounceDelay) evs) :
    (eventLoop cfg race horizon (evs.map fun x => (x.1, Input.event x.2))
        (LoopState.init log)).2 = none ∧
    (eventLoop cfg race horizon (evs.map fun x => (x.1, Input.event x.2))
        (LoopState.init log)).1.dispatches
      = (if (evs.getLast hne).1 + debounceDelay ≤ horizon then
          [⟨(evs.getLast hne).1 + debounceDelay, evs.length - 1, cfg.execCmd, cfg.verbose⟩]
        else []) := by
  match evs, hne, hgap with
  | e :: evs, _, hgap =>
    have hp : (LoopState.init log).PendingAfter e.1 := by
      intro tm htm
      cases htm
    have := eventLoop_burst cfg race horizon evs e (LoopState.init log) hp hgap
    simpa [LoopState.init] using this

/-- C7, debounce reset: when the trigger the variable `timer` points to has
already fired, a notification arriving at `t` arms a fresh trigger with deadline
`t + debounceDelay`, the only armed one, and leaves the earlier one as it is; if
nothing else arrives the loop goes on and the new trigger calls
`executeCommand` at `t + debounceDelay`, after the calls made before.  Two
notifications more than `debounceDelay` apart therefore make two calls. -/
theorem debounce_reset (cfg : config) (race : Nat → Bool) (s : LoopState)
    (hs : Reachable cfg s) (prev : Timer) (hprev : prev ∈ s.timers)
    (hptr : s.timer = some prev.id) (hfired : prev.status = .fired)
    (t horizon : Nat) (ev : Event) :
    (selectCase cfg t (.event ev) (runTimers (race t) t s)).1.armed
      = [⟨s.timers.length, t + debounceDelay, .armed, cfg.execCmd, cfg.verbose⟩] ∧
    prev ∈ (selectCase cfg t (.event ev) (runTimers (race t) t s)).1.timers ∧
    (eventLoop cfg race horizon [(t, .event ev)] s).2 = none ∧
    (eventLoop cfg race horizon [(t, .event ev)] s).1.dispatches
      = s.dispatches ++
        (if t + debounceDelay ≤ horizon then
          [⟨t + debounceDelay, s.timers.length, cfg.execCmd, cfg.verbose⟩]
        else []) ∧
    ∀ (log : List LogLine) (t1 t2 : Nat) (e1 e2 : Event),
      t1 + debounceDelay < t2 → t2 + debounceDelay ≤ horizon →
      (eventLoop cfg race horizon [(t1, .event e1), (t2, .event e2)]
          (LoopState.init log)).1.dispatches
        = [⟨t1 + debounceDelay, 0, cfg.execCmd, cfg.verbose⟩,
           ⟨t2 + debounceDelay, 1, cfg.execCmd, cfg.verbose⟩] := by
  have hn := hs.has_inv.not_armed_of_fired prev hprev hptr hfired
  have hp := pendingAfter_of_not_armed s t hn
  obtain ⟨_, _, _, h4, _⟩ := selectCase_event_of_pendingAfter cfg (race t) t ev s hp
  have hb := eventLoop_burst cfg race horizon [] (t, ev) s hp List.Chain.nil
  refine ⟨h4, ?_, ?_, ?_, ?_⟩
  · rw [runTimers_of_pendingAfter (race t) t s hp, selectCase_event_timers, List.mem_append]
    exact Or.inl (mem_stopped_of_not_armed s prev hprev (by rw [hfired]; decide))
  · exact hb.1
  · simpa using hb.2
  · intro log t1 t2 e1 e2 h12 hh
    have := eventLoop_two cfg race horizon (LoopState.init log)
      (fun tm htm => by cases htm) t1 t2 e1 e2 h12 hh
    simpa [LoopState.init] using this

/-- C9, recoverable runtime errors: in every state, receiving an item of the error
stream logs it, does not end the loop, and changes nothing else in the state
(the variable `timer`, the timers and the calls made are the same); a trigger
that was pending is still armed with its deadline and, with nothing else
arriving, calls `executeCommand` at that deadline. -/
theorem watcher_error_recoverable (cfg : config) (now : Nat) (err : Option GoError)
    (s : LoopState) :
    selectCase cfg now (.error err) s
      = ({ s with log := s.log ++ [LogLine.watcherError err] }, none) ∧
    (selectCase cfg now (.error err) s).1.debounce = s.debounce ∧
    ∀ (race : Nat → Bool) (horizon : Nat) (tm : Timer), tm ∈ s.timers →
      tm.status = .armed → tm.deadline ≤ horizon →
      (eventLoop cfg race horizon [(now, .error err)] s).2 = none ∧
      (⟨tm.deadline, tm.id, tm.cmdStr, tm.verbose⟩ : Dispatch)
        ∈ (eventLoop cfg race horizon [(now, .error err)] s).1.dispatches := by
  refine ⟨rfl, rfl, ?_⟩
  intro race horizon tm htm ha hh
  refine ⟨rfl, ?_⟩
  simp only [eventLoop, selectCase]
  by_cases hd : tm.due (race now) now = true
  · simp only [runTimers, List.mem_append, List.mem_map, List.mem_filter]
    exact Or.inl (Or.inr ⟨tm, ⟨htm, hd⟩, rfl⟩)
  · simp only [runTimers, List.mem_append, List.mem_map, List.mem_filter]
    refine Or.inr ⟨tm, ⟨⟨tm, htm, by rw [if_neg hd]⟩, ?_⟩, rfl⟩
    simp only [Timer.due, ha, decide_True, Bool.true_and, decide_eq_true_eq, true_and]
    omega

/-- C8, no filtering: in every state, handling one notification or another that
differs from it in operation kind or affected path gives the same debounce
state (the variable `timer`, the timers, the calls made) and the same
continuation of the loop: the previous trigger stopped and a new one armed with
deadline `now + debounceDelay` and the configured command; so a metadata change
(`Chmod`) resets the timer as a content change (`Write`) does.  The same holds
of whole runs of the loop on inputs that differ only so. -/
theorem no_filtering (cfg : config) (now : Nat) (s : LoopState) (e1 e2 : Event) :
    (selectCase cfg now (.event e1) s).1.debounce
      = (selectCase cfg now (.event e2) s).1.debounce ∧
    (selectCase cfg now (.event e1) s).2 = (selectCase cfg now (.event e2) s).2 ∧
    (selectCase cfg now (.event e1) s).1.debounce
      = (some s.timers.length,
          (match s.timer with
            | some id => Timer.Stop id s.timers
            | none => s.timers)
            ++ [⟨s.timers.length, now + debounceDelay, .armed, cfg.execCmd, cfg.verbose⟩],
          s.dispatches) ∧
    (∀ name : String,
      (selectCase cfg now (.event ⟨name, .Chmod⟩) s).1.debounce
        = (selectCase cfg now (.event ⟨name, .Write⟩) s).1.debounce) ∧
    ∀ (race : Nat → Bool) (horizon : Nat) (l1 l2 : List (Nat × Input)),
      List.Forall₂ (fun a b : Nat × Input => a.1 = b.1 ∧ a.2.sameUpToEvent b.2) l1 l2 →
      (eventLoop cfg race horizon l1 s).1.debounce
        = (eventLoop cfg race horizon l2 s).1.debounce ∧
      (eventLoop cfg race horizon l1 s).2 = (eventLoop cfg race horizon l2 s).2 := by
  refine ⟨rfl, rfl, ?_, fun _ => rfl, ?_⟩
  · simp only [LoopState.debounce, selectCase, AfterFunc, stopped_eq]
  · intro race horizon l1 l2 hl
    exact eventLoop_debounce_congr cfg race horizon l1 l2 hl s s rfl

/-! ## The theorems at the example inputs -/

/-- The coalescing theorem at five notifications 30 ms apart: one call, 100 ms
after the last. -/
theorem debounce_coalescing_witness :
    exampleBurst ≠ [] ∧
    List.Chain' (fun a b : Nat × Event => a.1 ≤ b.1 ∧ b.1 - a.1 < debounceDelay) exampleBurst ∧
    (eventLoop exampleCfg (fun _ => true) (500 * Millisecond)
        (exampleBurst.map fun x => (x.1, Input.event x.2)) (LoopState.init [])).1.dispatches
      = [⟨220 * Millisecond, 4, "echo done", false⟩] :=
  ⟨by decide, by simp [exampleBurst, debounceDelay, Millisecond],
    (debounce_coalescing exampleCfg (fun _ => true) (500 * Millisecond) [] exampleBurst
      (by decide) (by simp [exampleBurst, debounceDelay, Millisecond])).2.trans (by decide)⟩

/-- The invariant at the state after one notification. -/
theorem single_pending_trigger_witness :
    Reachable exampleCfg examplePending ∧ examplePending.armed.length ≤ 1 :=
  ⟨⟨[], Reaches.select 0 _ (Reaches.refl _)⟩,
    (single_pending_trigger exampleCfg examplePending
      ⟨[], Reaches.select 0 _ (Reaches.refl _)⟩).1⟩

/-- The reset theorem at a notification that arrives 200 ms after the trigger of
the one before fired: a second call, 100 ms after it. -/
theorem debounce_reset_witness :
    Reachable exampleCfg exampleFired ∧
    (⟨0, 100 * Millisecond, .fired, "echo done", false⟩ : Timer) ∈ exampleFired.timers ∧
    exampleFired.timer = some 0 ∧
    (eventLoop exampleCfg (fun _ => true) (500 * Millisecond)
        [(300 * Millisecond, .event ⟨"src/a.txt", .Chmod⟩)] exampleFired).1.dispatches
      = [⟨100 * Millisecond, 0, "echo done", false⟩,
         ⟨400 * Millisecond, 1, "echo done", false⟩] :=
  ⟨⟨[], Reaches.tick true _ (Reaches.select 0 _ (Reaches.refl _))⟩, by decide, rfl,
    (debounce_reset exampleCfg (fun _ => true) exampleFired
      ⟨[], Reaches.tick true _ (Reaches.select 0 _ (Reaches.refl _))⟩
      ⟨0, 100 * Millisecond, .fired, "echo done", false⟩ (by decide) rfl rfl
      (300 * Millisecond) (500 * Millisecond) ⟨"src/a.txt", .Chmod⟩).2.2.2.1.trans
      (by decide)⟩

/-- The exclusion theorem at the path `.`, whose tree has a root named `.` and a
`.git` directory: the root, `src` and `src/pkg` are subscribed, under the paths
`filepath.Join` gives them. -/
theorem addDir_hidden_exclusion_witness :
    exampleTree.validNames = true ∧
    (∀ q ∈ visibleDirs "." exampleTree, exampleWatcher.addErr q = none) ∧
    exampleTree.walkClean true = true ∧
    (addDir exampleWatcher "." exampleTree).1.watched = [".", "src", "src/pkg"] ∧
    (addDir exampleWatcher "." exampleTree).2 = none :=
  ⟨by decide, fun _ _ => rfl, by decide,
    (congrArg (fun r => r.1.watched)
      (addDir_hidden_exclusion exampleWatcher "." exampleTree (by decide) (fun _ _ => rfl)
        (by decide)).1).trans (by decide),
    by decide⟩

/-- The fail-fast theorem at the same tree when `src` is refused: only the root is
subscribed and the error names `src`. -/
theorem addDir_fail_fast_witness :
    exampleTree.validNames = true ∧
    (∃ q ∈ visibleDirs "." exampleTree, exampleRefusing.addErr q ≠ none) ∧
    (∃ (e : GoError) (l : List String),
      addDir exampleRefusing "." exampleTree
        = ({ exampleRefusing with watched := exampleRefusing.watched ++ l }, some e) ∧
      l <+: (visibleDirs "." exampleTree).takeWhile (accepts exampleRefusing.addErr) ∧
      (∀ q ∈ l, exampleRefusing.addErr q = none) ∧
      (exampleTree.walkClean true = true →
        l = (visibleDirs "." exampleTree).takeWhile (accepts exampleRefusing.addErr) ∧
        some e = firstFailure exampleRefusing.addErr (visibleDirs "." exampleTree))) ∧
    (addDir exampleRefusing "." exampleTree).1.watched = ["."] ∧
    (addDir exampleRefusing "." exampleTree).2
      = some (.wrap "failed to watch %q: %w" (some "src") (.sys "permission denied")) :=
  ⟨by decide, ⟨"src", by decide, by decide⟩,
    addDir_fail_fast exampleRefusing "." exampleTree (by decide)
      ⟨"src", by decide, by decide⟩,
    by decide, by decide⟩

end Igotifier
